import Mathlib

/-!
Verification of the reciprocal-space field symmetrization core
(`qimpy/symmetries/_field.py`).

The Python/torch source is shallowly embedded below.  Tensors indexed by the
half-space grid become functions `ℕ → ℂ`; the integer index arithmetic of
`get_index`, the orbit construction of `FieldSymmetrizer.__init__` and the
single-process data flow of `FieldSymmetrizer.__call__` are translated
statement by statement.  The multi-process communication schedule
(`send_prev`/`recv_prev`, `Alltoallv` arguments) is embedded separately near
the end of the file.
-/

namespace QimpySymm

/-- Integer 3-vectors (row vectors), `iH` in the source. -/
abbrev Vec3 := Fin 3 → ℤ

/-- Integer 3×3 matrices; `R k j` is row `k`, column `j` (a rotation in
lattice coordinates, `rot_i` in the source). -/
abbrev Mat3 := Fin 3 → Fin 3 → ℤ

/-- Row-vector times matrix, `iH @ rot_i` in the source. -/
def matVec (x : Vec3) (R : Mat3) : Vec3 := fun j => ∑ k, x k * R k j

/-- Matrix product (used to state closure of the rotation set). -/
def matMul (A B : Mat3) : Mat3 := fun i j => ∑ k, A i k * B k j

/-- Identity rotation. -/
def idMat : Mat3 := fun i j => if i = j then 1 else 0

/-- Negation of a rotation (composition with spatial inversion). -/
def negMat (A : Mat3) : Mat3 := fun i j => - A i j

/-- Full grid shape `grid.shape` (= `shapeR` in the source). -/
structure GridShape where
  s0 : ℕ
  s1 : ℕ
  s2 : ℕ
deriving DecidableEq

/-- `shapeR` as an integer vector. -/
def sR (g : GridShape) : Fin 3 → ℤ := ![(g.s0 : ℤ), (g.s1 : ℤ), (g.s2 : ℤ)]

/-- Last component of the half-space shape `grid.shapeH`; the first two agree
with the full shape and the folded axis keeps `s2 / 2 + 1` planes. -/
def h2 (g : GridShape) : ℕ := g.s2 / 2 + 1

/-- Half-space shape `(s0, s1, h2)` as an integer vector. -/
def sH (g : GridShape) : Fin 3 → ℤ := ![(g.s0 : ℤ), (g.s1 : ℤ), (h2 g : ℕ)]

/-- `strideH = [shapeH[1] * shapeH[2], shapeH[2], 1]` from the source. -/
def strideH (g : GridShape) : Fin 3 → ℤ := ![(g.s1 * h2 g : ℕ), (h2 g : ℕ), 1]

/-- Componentwise wrap `iH % shapeR` (Python `%`, i.e. `Int.emod`). -/
def wrap (g : GridShape) (x : Vec3) : Vec3 := fun j => x j % sR g j

/-- Flattened half-space index `iH_wrapped @ strideH`. -/
def flatten (g : GridShape) (x : Vec3) : ℤ := ∑ j, x j * strideH g j

/-- The folded wrapped vector computed inside `get_index`:
`iH_wrapped[is_conj] = (-iH_wrapped[is_conj]) % shapeR`. -/
def foldVec (g : GridShape) (x : Vec3) : Vec3 :=
  if (h2 g : ℤ) ≤ wrap g x 2 then wrap g (fun j => - wrap g x j) else wrap g x

/-- `get_index` from the source: wrap each component modulo the full period;
if the wrapped folded component lies in the redundant half
(`iH_wrapped[..., 2] >= shapeH[2]`), negate the whole wrapped vector modulo
the period and flag conjugation; return the flattened index and the flag. -/
def get_index (g : GridShape) (x : Vec3) : ℤ × Bool :=
  (flatten g (foldVec g x), decide ((h2 g : ℤ) ≤ wrap g x 2))

/-- The flattened index of `get_index` as a natural number. -/
def foldIdx (g : GridShape) (x : Vec3) : ℕ := (get_index g x).1.toNat

/-- Number of stored half-space grid points (`prod(shapeH)`). -/
def nH (g : GridShape) : ℕ := g.s0 * g.s1 * h2 g

/-- Modelled from the spec: the grid collaborator's per-point frequency-index
lookup (`grid.get_mesh('H')`, outside this subsystem) enumerates the
half-space points; we use the canonical non-negative representative of each
point.  `get_index` depends on its argument only modulo the full period
(`get_index_congr` below), so any other frequency convention for the first
two axes yields identical indices. -/
def meshH (g : GridShape) (i : ℕ) : Vec3 :=
  ![(i / (g.s1 * h2 g) : ℕ), ((i % (g.s1 * h2 g)) / h2 g : ℕ), (i % h2 g : ℕ)]

/-- `min_equiv_index` of the source for one point: start from the bare folded
index and take the minimum over the folded image under every rotation. -/
def keyFold (g : GridShape) (rot : List Mat3) (i : ℕ) : ℕ :=
  rot.foldl (fun m R => min m (foldIdx g (matVec (meshH g i) R)))
    (foldIdx g (meshH g i))

/-- All canonical keys (`min_equiv_index` over the global mesh). -/
def keyList (g : GridShape) (rot : List Mat3) : List ℕ :=
  (List.range (nH g)).map (keyFold g rot)

/-- `min_equiv_index.unique()`: the distinct canonical keys in increasing
order; `iH_reduced` is the mesh at these flat positions. -/
def reduced (g : GridShape) (rot : List Mat3) : List ℕ :=
  ((keyList g rot).insertionSort (· ≤ ·)).dedup

/-- Number of orbits (`iH_reduced.shape[0]`). -/
def nOrbits (g : GridShape) (rot : List Mat3) : ℕ := (reduced g rot).length

/-- Flat position of the representative of orbit `o`. -/
def repOf (g : GridShape) (rot : List Mat3) (o : ℕ) : ℕ := (reduced g rot).getD o 0

/-- Rotation number `s` of the group list. -/
def rotAt (rot : List Mat3) (s : ℕ) : Mat3 := rot.getD s idMat

/-- Member table `index[o, s]` of the source:
`get_index((iH_reduced @ rot).transpose(0, 1))`. -/
def mIdx (g : GridShape) (rot : List Mat3) (o s : ℕ) : ℕ :=
  foldIdx g (matVec (meshH g (repOf g rot o)) (rotAt rot s))

/-- Conjugation table `is_conj[o, s]` of the source. -/
def mConj (g : GridShape) (rot : List Mat3) (o s : ℕ) : Bool :=
  (get_index g (matVec (meshH g (repOf g rot o)) (rotAt rot s))).2

/-- Fractional translation number `s` of the group list (commensurate with
the grid, hence rational). -/
def transAt (trans : List (Fin 3 → ℚ)) (s : ℕ) : Fin 3 → ℚ := trans.getD s (fun _ => 0)

/-- Exponent (in units of `2π`) of the translation phase:
`(iH_reduced[:, None] * trans).sum(dim=-1)`. -/
def phaseExp (g : GridShape) (rot : List Mat3) (trans : List (Fin 3 → ℚ))
    (o s : ℕ) : ℚ :=
  ∑ k, ((meshH g (repOf g rot o) k : ℤ) : ℚ) * transAt trans s k

/-- Translation phase `qp.utils.cis((-2π) (iH_reduced[:, None] * trans).sum(-1))`,
with `cis θ = exp(i θ)`. -/
noncomputable def phaseAt (g : GridShape) (rot : List Mat3) (trans : List (Fin 3 → ℚ))
    (o s : ℕ) : ℂ :=
  Complex.exp (Complex.I * (-(2 * Real.pi) * ((phaseExp g rot trans o s : ℚ) : ℝ)))

/-- The integer data `FieldSymmetrizer.__init__` precomputes for `__call__`
(single-process branch): member index table and conjugation flags, as
functions of orbit number `o < nO` and group slot `s < n`. -/
structure IndexData where
  nO : ℕ
  n : ℕ
  idx : ℕ → ℕ → ℕ
  cnj : ℕ → ℕ → Bool

/-- The index data computed by `__init__` from a grid and group. -/
def indexData (g : GridShape) (rot : List Mat3) : IndexData :=
  ⟨nOrbits g rot, rot.length, mIdx g rot, mConj g rot⟩

/-- Abbreviation for complex conjugation (`v_orbits.imag *= -1`). -/
noncomputable def cj : ℂ → ℂ := starRingEnd ℂ

/-- Conditional conjugation: `_conjugate` applies `imag *= imag_scale`,
conjugating exactly the flagged entries. -/
noncomputable def condConj (b : Bool) (z : ℂ) : ℂ := if b then cj z else z

/-- Occurrence count of grid index `i` in the member table:
`index.unique(sorted=True, return_counts=True)` counts, aligned to grid
indices (the broadcast `v_data *= inv_multiplicity[None]` requires the
distinct members to cover the grid exactly). -/
def countsD (T : IndexData) (i : ℕ) : ℕ :=
  ∑ o ∈ Finset.range T.nO, ∑ s ∈ Finset.range T.n, if T.idx o s = i then 1 else 0

/-- `inv_multiplicity = (1 / n_sym) / multiplicity` from the source. -/
def invMultD (T : IndexData) (i : ℕ) : ℚ := (1 / (T.n : ℚ)) / (countsD T i : ℚ)

/-- Per-orbit phase-weighted sum `v_sym = einsum('bos, os -> bo', ...)` after
the gather (`v_orbits = v_data[index]`) and the conjugation fold; the phase
table `ph` is passed alongside the index data. -/
noncomputable def wOrb (T : IndexData) (ph : ℕ → ℕ → ℂ) (v : ℕ → ℂ) (o : ℕ) : ℂ :=
  ∑ s ∈ Finset.range T.n, ph o s * condConj (T.cnj o s) (v (T.idx o s))

/-- Scatter-accumulation into the grid: re-expand with the conjugate phase
(`v_sym[..., None] * phase.conj()`), undo the fold, and `index_put_` with
`accumulate=True`. -/
noncomputable def accum (T : IndexData) (ph : ℕ → ℕ → ℂ) (v : ℕ → ℂ) (i : ℕ) : ℂ :=
  ∑ o ∈ Finset.range T.nO, ∑ s ∈ Finset.range T.n,
    if T.idx o s = i then condConj (T.cnj o s) (wOrb T ph v o * cj (ph o s)) else 0

/-- One full symmetrization pass of `__call__` (single-process branch) on one
batch element: gather by orbits, fold, phase-average, re-expand, unfold,
scatter-accumulate, then normalize by `inv_multiplicity`. -/
noncomputable def symData (T : IndexData) (ph : ℕ → ℕ → ℂ) (v : ℕ → ℂ) (i : ℕ) : ℂ :=
  ((invMultD T i : ℚ) : ℂ) * accum T ph v i

/-- `FieldSymmetrizer` applied to a field on grid `g` with group `(rot, trans)`. -/
noncomputable def symmetrize (g : GridShape) (rot : List Mat3) (trans : List (Fin 3 → ℚ))
    (v : ℕ → ℂ) : ℕ → ℂ :=
  symData (indexData g rot) (phaseAt g rot trans) v

/-! ### Basic facts about `wrap`, `foldVec` and `get_index` -/

theorem wrap_nonneg (g : GridShape) (x : Vec3) (j : Fin 3) (h : 0 < sR g j) :
    0 ≤ wrap g x j :=
  Int.emod_nonneg _ (by omega)

theorem wrap_lt (g : GridShape) (x : Vec3) (j : Fin 3) (h : 0 < sR g j) :
    wrap g x j < sR g j :=
  Int.emod_lt_of_pos _ h

theorem sR_pos (g : GridShape) (h0 : 0 < g.s0) (h1 : 0 < g.s1) (h2p : 0 < g.s2) :
    ∀ j, 0 < sR g j := by
  intro j
  fin_cases j <;> simp [sR] <;> omega

/-- `get_index` only depends on its argument modulo the full grid period. -/
theorem get_index_congr (g : GridShape) (x y : Vec3)
    (h : ∀ j, x j % sR g j = y j % sR g j) :
    get_index g x = get_index g y := by
  have hw : wrap g x = wrap g y := funext fun j => h j
  simp only [get_index, foldVec, hw]

theorem foldVec_nonneg (g : GridShape) (x : Vec3)
    (h0 : 0 < g.s0) (h1 : 0 < g.s1) (hs2 : 0 < g.s2) (j : Fin 3) :
    0 ≤ foldVec g x j := by
  have hp : 0 < sR g j := sR_pos g h0 h1 hs2 j
  unfold foldVec
  split
  · exact wrap_nonneg g _ j hp
  · exact wrap_nonneg g _ j hp

theorem foldVec_lt_sH (g : GridShape) (x : Vec3)
    (h0 : 0 < g.s0) (h1 : 0 < g.s1) (hs2 : 0 < g.s2) (j : Fin 3) :
    foldVec g x j < sH g j := by
  have hp : ∀ j, 0 < sR g j := sR_pos g h0 h1 hs2
  have hs2h : g.s2 < 2 * h2 g := by unfold h2; omega
  have hs2h' : (g.s2 : ℤ) < 2 * ((h2 g : ℕ) : ℤ) := by exact_mod_cast hs2h
  unfold foldVec
  split
  case isTrue h =>
    fin_cases j
    · exact wrap_lt g _ 0 (hp 0)
    · exact wrap_lt g _ 1 (hp 1)
    · show wrap g (fun j => - wrap g x j) 2 < sH g 2
      have hw2lt : wrap g x 2 < (g.s2 : ℤ) := by
        have := wrap_lt g x 2 (hp 2); exact this
      have hh2pos : (0 : ℤ) < ((h2 g : ℕ) : ℤ) := by
        have : 0 < h2 g := by unfold h2; omega
        exact_mod_cast this
      have hw2pos : 0 < wrap g x 2 := lt_of_lt_of_le hh2pos h
      have hrw : wrap g (fun j => - wrap g x j) 2 = (g.s2 : ℤ) - wrap g x 2 := by
        show (- wrap g x 2) % sR g 2 = _
        have e1 : (- wrap g x 2) % sR g 2 = (- wrap g x 2 + sR g 2 * 1) % sR g 2 :=
          (Int.add_mul_emod_self_left (- wrap g x 2) (sR g 2) 1).symm
        rw [e1]
        have e2 : - wrap g x 2 + sR g 2 * 1 = (g.s2 : ℤ) - wrap g x 2 := by
          have hsr : sR g 2 = (g.s2 : ℤ) := rfl
          omega
        rw [e2]
        exact Int.emod_eq_of_lt (by omega) (by omega)
      rw [hrw]
      show (g.s2 : ℤ) - wrap g x 2 < ((h2 g : ℕ) : ℤ)
      omega
  case isFalse h =>
    fin_cases j
    · exact wrap_lt g _ 0 (hp 0)
    · exact wrap_lt g _ 1 (hp 1)
    · show wrap g x 2 < sH g 2
      show wrap g x 2 < ((h2 g : ℕ) : ℤ)
      omega

theorem flatten_eval (g : GridShape) (v : Vec3) :
    flatten g v = v 0 * ((g.s1 : ℤ) * ((h2 g : ℕ) : ℤ)) + v 1 * ((h2 g : ℕ) : ℤ) + v 2 := by
  simp [flatten, strideH, Fin.sum_univ_three]

theorem flatten_bounds (g : GridShape) (v : Vec3)
    (hnn : ∀ j, 0 ≤ v j) (hlt : ∀ j, v j < sH g j) :
    0 ≤ flatten g v ∧ flatten g v < (nH g : ℤ) := by
  rw [flatten_eval]
  have h0 := hnn 0; have h1 := hnn 1; have h2n := hnn 2
  have l0 : v 0 < (g.s0 : ℤ) := hlt 0
  have l1 : v 1 < (g.s1 : ℤ) := hlt 1
  have l2 : v 2 < ((h2 g : ℕ) : ℤ) := hlt 2
  have hnH : (nH g : ℤ) = (g.s0 : ℤ) * ((g.s1 : ℤ) * ((h2 g : ℕ) : ℤ)) := by
    simp [nH]; ring
  have hc1 : (0 : ℤ) ≤ ((h2 g : ℕ) : ℤ) := by positivity
  have hc2 : (0 : ℤ) ≤ (g.s1 : ℤ) * ((h2 g : ℕ) : ℤ) := by positivity
  constructor
  · nlinarith [mul_nonneg h0 hc2, mul_nonneg h1 hc1]
  · rw [hnH]
    have p0 : v 0 * ((g.s1 : ℤ) * ((h2 g : ℕ) : ℤ)) ≤
        ((g.s0 : ℤ) - 1) * ((g.s1 : ℤ) * ((h2 g : ℕ) : ℤ)) :=
      mul_le_mul_of_nonneg_right (by omega) hc2
    have p1 : v 1 * ((h2 g : ℕ) : ℤ) ≤ ((g.s1 : ℤ) - 1) * ((h2 g : ℕ) : ℤ) :=
      mul_le_mul_of_nonneg_right (by omega) hc1
    nlinarith [p0, p1, l2, hc1, hc2]

theorem get_index_fst_bounds (g : GridShape) (x : Vec3)
    (h0 : 0 < g.s0) (h1 : 0 < g.s1) (hs2 : 0 < g.s2) :
    0 ≤ (get_index g x).1 ∧ (get_index g x).1 < (nH g : ℤ) :=
  flatten_bounds g (foldVec g x) (foldVec_nonneg g x h0 h1 hs2)
    (foldVec_lt_sH g x h0 h1 hs2)

theorem foldIdx_lt (g : GridShape) (x : Vec3)
    (h0 : 0 < g.s0) (h1 : 0 < g.s1) (hs2 : 0 < g.s2) :
    foldIdx g x < nH g := by
  obtain ⟨ha, hb⟩ := get_index_fst_bounds g x h0 h1 hs2
  unfold foldIdx
  omega

/-! ### The mesh is a section of the fold -/

theorem nH_pos_factors (g : GridShape) (i : ℕ) (hi : i < nH g) :
    0 < g.s0 ∧ 0 < g.s1 := by
  have hne : nH g ≠ 0 := by omega
  unfold nH at hne
  obtain ⟨h01, _⟩ := Nat.mul_ne_zero_iff.mp hne
  obtain ⟨ha, hb⟩ := Nat.mul_ne_zero_iff.mp h01
  omega

theorem meshH_nonneg (g : GridShape) (i : ℕ) (j : Fin 3) : 0 ≤ meshH g i j := by
  fin_cases j
  · show (0 : ℤ) ≤ ((i / (g.s1 * h2 g) : ℕ) : ℤ)
    positivity
  · show (0 : ℤ) ≤ (((i % (g.s1 * h2 g)) / h2 g : ℕ) : ℤ)
    positivity
  · show (0 : ℤ) ≤ ((i % h2 g : ℕ) : ℤ)
    positivity

theorem meshH_lt_sH (g : GridShape) (i : ℕ) (hi : i < nH g) (j : Fin 3) :
    meshH g i j < sH g j := by
  obtain ⟨h0, h1⟩ := nH_pos_factors g i hi
  have hh2 : 0 < h2 g := by unfold h2; omega
  have hA : 0 < g.s1 * h2 g := Nat.mul_pos h1 hh2
  fin_cases j
  · show ((i / (g.s1 * h2 g) : ℕ) : ℤ) < (g.s0 : ℤ)
    have : i / (g.s1 * h2 g) < g.s0 := by
      rw [Nat.div_lt_iff_lt_mul hA]
      have : nH g = g.s0 * (g.s1 * h2 g) := by unfold nH; ring
      omega
    exact_mod_cast this
  · show (((i % (g.s1 * h2 g)) / h2 g : ℕ) : ℤ) < (g.s1 : ℤ)
    have : (i % (g.s1 * h2 g)) / h2 g < g.s1 := by
      rw [Nat.div_lt_iff_lt_mul hh2]
      have := Nat.mod_lt i hA
      omega
    exact_mod_cast this
  · show ((i % h2 g : ℕ) : ℤ) < ((h2 g : ℕ) : ℤ)
    exact_mod_cast Nat.mod_lt i hh2

theorem sH_le_sR (g : GridShape) (hs2 : 0 < g.s2) (j : Fin 3) : sH g j ≤ sR g j := by
  have : h2 g ≤ g.s2 := by unfold h2; omega
  fin_cases j
  · exact le_refl _
  · exact le_refl _
  · show ((h2 g : ℕ) : ℤ) ≤ (g.s2 : ℤ)
    exact_mod_cast this

theorem wrap_meshH (g : GridShape) (i : ℕ) (hi : i < nH g) (hs2 : 0 < g.s2) :
    wrap g (meshH g i) = meshH g i := by
  funext j
  exact Int.emod_eq_of_lt (meshH_nonneg g i j)
    (lt_of_lt_of_le (meshH_lt_sH g i hi j) (sH_le_sR g hs2 j))

theorem flatten_meshH (g : GridShape) (i : ℕ) :
    flatten g (meshH g i) = (i : ℤ) := by
  have e1 := Nat.div_add_mod i (g.s1 * h2 g)
  have e2 := Nat.div_add_mod (i % (g.s1 * h2 g)) (h2 g)
  have e3 : (i % (g.s1 * h2 g)) % h2 g = i % h2 g :=
    Nat.mod_mod_of_dvd i ⟨g.s1, by ring⟩
  rw [flatten_eval]
  have m0 : meshH g i 0 = ((i / (g.s1 * h2 g) : ℕ) : ℤ) := rfl
  have m1 : meshH g i 1 = (((i % (g.s1 * h2 g)) / h2 g : ℕ) : ℤ) := rfl
  have m2 : meshH g i 2 = ((i % h2 g : ℕ) : ℤ) := rfl
  rw [m0, m1, m2]
  have hN : i = (g.s1 * h2 g) * (i / (g.s1 * h2 g)) +
      (h2 g * ((i % (g.s1 * h2 g)) / h2 g) + i % h2 g) := by
    rw [← e3, e2, e1]
  have hC := congrArg (Nat.cast : ℕ → ℤ) hN
  push_cast at hC ⊢
  linear_combination -hC

theorem get_index_meshH (g : GridShape) (i : ℕ) (hi : i < nH g) (hs2 : 0 < g.s2) :
    get_index g (meshH g i) = ((i : ℤ), false) := by
  have hh2 : 0 < h2 g := by unfold h2; omega
  have hw : wrap g (meshH g i) = meshH g i := wrap_meshH g i hi hs2
  have hidx : meshH g i 2 = ((i % h2 g : ℕ) : ℤ) := rfl
  have hcne : ¬ ((h2 g : ℤ) ≤ wrap g (meshH g i) 2) := by
    rw [hw, hidx]
    have : i % h2 g < h2 g := Nat.mod_lt i hh2
    push_neg
    exact_mod_cast this
  unfold get_index foldVec
  rw [if_neg hcne, hw, flatten_meshH g i]
  have hcne2 : ¬ ((h2 g : ℤ) ≤ meshH g i 2) := by rw [← hw]; exact hcne
  rw [decide_eq_false hcne2]

theorem foldIdx_meshH (g : GridShape) (i : ℕ) (hi : i < nH g) (hs2 : 0 < g.s2) :
    foldIdx g (meshH g i) = i := by
  unfold foldIdx
  rw [get_index_meshH g i hi hs2]
  exact Int.toNat_natCast i

/-! ### Claim C2: the half-space reduction -/

/-- **C2.** For every integer index 3-vector, the reduction first wraps each
component modulo the full grid period; the conjugation flag is set exactly
when the wrapped folded component reaches the half-space bound `shapeH[2]`,
in which case the entire wrapped vector is negated modulo the period before
flattening; and the returned flattened index always lies in
`[0, prod(shapeH))`. -/
theorem c2_half_space_reduction (g : GridShape) (x : Vec3)
    (h0 : 0 < g.s0) (h1 : 0 < g.s1) (hs2 : 0 < g.s2) :
    ((get_index g x).2 = true ↔ (h2 g : ℤ) ≤ x 2 % (g.s2 : ℤ)) ∧
    (get_index g x).1 =
      (if (h2 g : ℤ) ≤ x 2 % (g.s2 : ℤ)
        then flatten g (wrap g (fun j => - wrap g x j))
        else flatten g (wrap g x)) ∧
    0 ≤ (get_index g x).1 ∧ (get_index g x).1 < ((g.s0 * g.s1 * h2 g : ℕ) : ℤ) := by
  have hc : wrap g x 2 = x 2 % (g.s2 : ℤ) := rfl
  refine ⟨?_, ?_, ?_⟩
  · show decide ((h2 g : ℤ) ≤ wrap g x 2) = true ↔ _
    rw [hc]
    exact decide_eq_true_iff
  · show flatten g (foldVec g x) = _
    unfold foldVec
    rw [hc]
    exact apply_ite (flatten g) _ _ _
  · exact get_index_fst_bounds g x h0 h1 hs2

/-- Witness for C2 at the concrete shape `(4, 1, 4)` and vector `(1, 0, -1)`. -/
theorem c2_half_space_reduction_witness :
    (0 < (4 : ℕ) ∧ 0 < (1 : ℕ) ∧ 0 < (4 : ℕ)) ∧
    (((get_index ⟨4, 1, 4⟩ ![1, 0, -1]).2 = true ↔
        (h2 ⟨4, 1, 4⟩ : ℤ) ≤ (![1, 0, -1] : Vec3) 2 % ((GridShape.mk 4 1 4).s2 : ℤ)) ∧
      (get_index ⟨4, 1, 4⟩ ![1, 0, -1]).1 =
        (if (h2 ⟨4, 1, 4⟩ : ℤ) ≤ (![1, 0, -1] : Vec3) 2 % ((GridShape.mk 4 1 4).s2 : ℤ)
          then flatten ⟨4, 1, 4⟩ (wrap ⟨4, 1, 4⟩ (fun j => - wrap ⟨4, 1, 4⟩ ![1, 0, -1] j))
          else flatten ⟨4, 1, 4⟩ (wrap ⟨4, 1, 4⟩ ![1, 0, -1])) ∧
      0 ≤ (get_index ⟨4, 1, 4⟩ ![1, 0, -1]).1 ∧
      (get_index ⟨4, 1, 4⟩ ![1, 0, -1]).1 <
        (((GridShape.mk 4 1 4).s0 * (GridShape.mk 4 1 4).s1 * h2 ⟨4, 1, 4⟩ : ℕ) : ℤ)) :=
  ⟨⟨by decide, by decide, by decide⟩,
    c2_half_space_reduction ⟨4, 1, 4⟩ ![1, 0, -1] (by decide) (by decide) (by decide)⟩

/-! ### Minima of left folds -/

theorem foldl_min_le_init (l : List ℕ) (a : ℕ) : l.foldl min a ≤ a := by
  induction l generalizing a with
  | nil => exact le_refl a
  | cons c t ih => exact le_trans (ih (min a c)) (min_le_left a c)

theorem foldl_min_le_mem (l : List ℕ) (a b : ℕ) (hb : b ∈ l) : l.foldl min a ≤ b := by
  induction l generalizing a with
  | nil => cases hb
  | cons c t ih =>
    rcases List.mem_cons.mp hb with h | h
    · subst h
      exact le_trans (foldl_min_le_init t (min a b)) (min_le_right a b)
    · exact ih (min a c) h

theorem foldl_min_mem (l : List ℕ) (a : ℕ) : l.foldl min a = a ∨ l.foldl min a ∈ l := by
  induction l generalizing a with
  | nil => exact Or.inl rfl
  | cons c t ih =>
    rcases ih (min a c) with h | h
    · rcases min_choice a c with hm | hm
      · exact Or.inl (by rw [List.foldl_cons, h, hm])
      · exact Or.inr (by rw [List.foldl_cons, h, hm]; exact List.mem_cons_self c t)
    · exact Or.inr (List.mem_cons_of_mem c h)

/-! ### Matrix algebra for the group action -/

theorem matVec_id (x : Vec3) : matVec x idMat = x := by
  funext j
  simp [matVec, idMat]

theorem matVec_matMul (x : Vec3) (A B : Mat3) :
    matVec (matVec x A) B = matVec x (matMul A B) := by
  funext j
  show (∑ k, (∑ l, x l * A l k) * B k j) = ∑ l, x l * (∑ k, A l k * B k j)
  simp only [Finset.sum_mul, Finset.mul_sum]
  rw [Finset.sum_comm]
  refine Finset.sum_congr rfl fun l _ => Finset.sum_congr rfl fun k _ => by ring

theorem matVec_negvec (x : Vec3) (A : Mat3) :
    matVec (fun j => - x j) A = fun j => - matVec x A j := by
  funext j
  simp [matVec, Finset.sum_neg_distrib, neg_mul]

theorem matVec_negMat (x : Vec3) (A : Mat3) :
    matVec x (negMat A) = fun j => - matVec x A j := by
  funext j
  simp [matVec, negMat, Finset.sum_neg_distrib, mul_neg]

theorem matMul_assoc (A B C : Mat3) : matMul (matMul A B) C = matMul A (matMul B C) := by
  funext i j
  show (∑ k, (∑ l, A i l * B l k) * C k j) = ∑ l, A i l * (∑ k, B l k * C k j)
  simp only [Finset.sum_mul, Finset.mul_sum]
  rw [Finset.sum_comm]
  refine Finset.sum_congr rfl fun l _ => Finset.sum_congr rfl fun k _ => by ring

theorem matMul_id_left (A : Mat3) : matMul idMat A = A := by
  funext i j
  simp [matMul, idMat]

theorem matMul_neg_left (A B : Mat3) : matMul (negMat A) B = negMat (matMul A B) := by
  funext i j
  simp [matMul, negMat, Finset.sum_neg_distrib, neg_mul]

/-! ### Inverting `flatten` on in-range vectors -/

theorem meshH_flatten (g : GridShape) (v : Vec3)
    (hnn : ∀ j, 0 ≤ v j) (hlt : ∀ j, v j < sH g j) :
    meshH g (flatten g v).toNat = v := by
  have l0 : v 0 < (g.s0 : ℤ) := hlt 0
  have l1 : v 1 < (g.s1 : ℤ) := hlt 1
  have l2 : v 2 < ((h2 g : ℕ) : ℤ) := hlt 2
  set a := (v 0).toNat with ha
  set b := (v 1).toNat with hb
  set c := (v 2).toNat with hc
  have hva : v 0 = (a : ℤ) := (Int.toNat_of_nonneg (hnn 0)).symm
  have hvb : v 1 = (b : ℤ) := (Int.toNat_of_nonneg (hnn 1)).symm
  have hvc : v 2 = (c : ℤ) := (Int.toNat_of_nonneg (hnn 2)).symm
  have hbn : b < g.s1 := by rw [hvb] at l1; exact_mod_cast l1
  have hcn : c < h2 g := by rw [hvc] at l2; exact_mod_cast l2
  have hN : (flatten g v).toNat = c + b * h2 g + a * (g.s1 * h2 g) := by
    rw [flatten_eval, hva, hvb, hvc]
    have : (a : ℤ) * ((g.s1 : ℤ) * ((h2 g : ℕ) : ℤ)) + (b : ℤ) * ((h2 g : ℕ) : ℤ) + (c : ℤ) =
        ((c + b * h2 g + a * (g.s1 * h2 g) : ℕ) : ℤ) := by
      push_cast
      ring
    rw [this, Int.toNat_natCast]
  have hrlt : c + b * h2 g < g.s1 * h2 g := by
    calc c + b * h2 g < h2 g + b * h2 g := by omega
    _ = (1 + b) * h2 g := by ring
    _ ≤ g.s1 * h2 g := Nat.mul_le_mul_right _ (by omega)
  have hh2 : 0 < h2 g := by unfold h2; omega
  have hA : 0 < g.s1 * h2 g := Nat.mul_pos (by omega) hh2
  have hdiv0 : (flatten g v).toNat / (g.s1 * h2 g) = a := by
    rw [hN, Nat.add_mul_div_right _ _ hA, Nat.div_eq_of_lt hrlt]
    omega
  have hmod0 : (flatten g v).toNat % (g.s1 * h2 g) = c + b * h2 g := by
    rw [hN, Nat.add_mul_mod_self_right, Nat.mod_eq_of_lt hrlt]
  have hdiv1 : (c + b * h2 g) / h2 g = b := by
    rw [Nat.add_mul_div_right _ _ hh2, Nat.div_eq_of_lt hcn]
    omega
  have hmod2 : (flatten g v).toNat % h2 g = c := by
    have : (flatten g v).toNat % h2 g = ((flatten g v).toNat % (g.s1 * h2 g)) % h2 g :=
      (Nat.mod_mod_of_dvd _ ⟨g.s1, by ring⟩).symm
    rw [this, hmod0, Nat.add_mul_mod_self_right, Nat.mod_eq_of_lt hcn]
  funext j
  fin_cases j
  · show ((((flatten g v).toNat) / (g.s1 * h2 g) : ℕ) : ℤ) = v 0
    rw [hdiv0, hva]
  · show ((((flatten g v).toNat % (g.s1 * h2 g)) / h2 g : ℕ) : ℤ) = v 1
    rw [hmod0, hdiv1, hvb]
  · show (((flatten g v).toNat % h2 g : ℕ) : ℤ) = v 2
    rw [hmod2, hvc]

/-- The mesh point at a folded index is congruent, modulo the grid period, to
the folded argument up to an overall sign (the Hermitian conjugation). -/
theorem meshH_foldIdx (g : GridShape) (x : Vec3)
    (h0 : 0 < g.s0) (h1 : 0 < g.s1) (hs2 : 0 < g.s2) :
    meshH g (foldIdx g x) = foldVec g x := by
  unfold foldIdx
  show meshH g (flatten g (foldVec g x)).toNat = foldVec g x
  exact meshH_flatten g (foldVec g x) (foldVec_nonneg g x h0 h1 hs2)
    (foldVec_lt_sH g x h0 h1 hs2)

/-- `foldVec g x` is congruent to `x` or to `-x`, componentwise modulo the
grid period; the sign is the conjugation flag. -/
theorem foldVec_congr_sign (g : GridShape) (x : Vec3) :
    ∃ e : Bool, ∀ j, foldVec g x j % sR g j = (if e = true then - x j else x j) % sR g j := by
  unfold foldVec
  by_cases h : (h2 g : ℤ) ≤ wrap g x 2
  · refine ⟨true, fun j => ?_⟩
    rw [if_pos h, if_pos rfl]
    show ((- wrap g x j) % sR g j) % sR g j = (- x j) % sR g j
    rw [Int.emod_emod_of_dvd _ dvd_rfl]
    exact Int.ModEq.neg (Int.emod_emod_of_dvd _ dvd_rfl)
  · refine ⟨false, fun j => ?_⟩
    rw [if_neg h, if_neg (by simp)]
    show (x j % sR g j) % sR g j = x j % sR g j
    exact Int.emod_emod_of_dvd _ dvd_rfl

/-! ### Grid-compatible rotations and the group action on folded indices -/

/-- A rotation maps the FFT grid to itself: multiplication by `A` preserves
congruence modulo the grid periods (the commensurability condition the
symmetry provider guarantees). -/
def gridCompat (g : GridShape) (A : Mat3) : Prop :=
  ∀ j k, sR g j ∣ sR g k * A k j

instance gridCompatDec (g : GridShape) (A : Mat3) : Decidable (gridCompat g A) :=
  decidable_of_iff (∀ j k, sR g j ∣ sR g k * A k j) Iff.rfl

theorem matVec_congr (g : GridShape) (A : Mat3) (hA : gridCompat g A)
    (x y : Vec3) (h : ∀ j, x j % sR g j = y j % sR g j) (j : Fin 3) :
    matVec x A j % sR g j = matVec y A j % sR g j := by
  have hdvd : sR g j ∣ (matVec y A j - matVec x A j) := by
    have hsub : matVec y A j - matVec x A j = ∑ k, (y k - x k) * A k j := by
      simp [matVec, Finset.sum_sub_distrib, sub_mul]
    rw [hsub]
    refine Finset.dvd_sum fun k _ => ?_
    obtain ⟨t, ht⟩ := Int.ModEq.dvd (h k)
    rw [ht]
    have : sR g k * t * A k j = t * (sR g k * A k j) := by ring
    rw [this]
    exact Dvd.dvd.mul_left (hA j k) t
  exact Int.modEq_iff_dvd.mpr hdvd

theorem foldIdx_congr (g : GridShape) (x y : Vec3)
    (h : ∀ j, x j % sR g j = y j % sR g j) : foldIdx g x = foldIdx g y := by
  unfold foldIdx
  rw [get_index_congr g x y h]

/-- The folded image of mesh point `i` under one rotation. -/
def imgAt (g : GridShape) (i : ℕ) (R : Mat3) : ℕ := foldIdx g (matVec (meshH g i) R)

theorem keyFold_eq_foldl (g : GridShape) (rot : List Mat3) (i : ℕ) :
    keyFold g rot i = (rot.map (imgAt g i)).foldl min (foldIdx g (meshH g i)) := by
  unfold keyFold
  rw [List.foldl_map]
  rfl

theorem keyFold_le_imgAt (g : GridShape) (rot : List Mat3) (i : ℕ)
    (A : Mat3) (hA : A ∈ rot) : keyFold g rot i ≤ imgAt g i A := by
  rw [keyFold_eq_foldl]
  exact foldl_min_le_mem _ _ _ (List.mem_map_of_mem _ hA)

theorem keyFold_le_bare (g : GridShape) (rot : List Mat3) (i : ℕ) :
    keyFold g rot i ≤ foldIdx g (meshH g i) := by
  rw [keyFold_eq_foldl]
  exact foldl_min_le_init _ _

theorem imgAt_id (g : GridShape) (i : ℕ) : imgAt g i idMat = foldIdx g (meshH g i) := by
  unfold imgAt
  rw [matVec_id]

theorem keyFold_attained (g : GridShape) (rot : List Mat3) (i : ℕ)
    (hid : idMat ∈ rot) : ∃ A ∈ rot, keyFold g rot i = imgAt g i A := by
  rw [keyFold_eq_foldl]
  rcases foldl_min_mem (rot.map (imgAt g i)) (foldIdx g (meshH g i)) with h | h
  · exact ⟨idMat, hid, by rw [h, imgAt_id]⟩
  · rcases List.mem_map.mp h with ⟨A, hA, hEq⟩
    exact ⟨A, hA, hEq.symm⟩

/-- Forward transfer: a one-step image of a one-step image of `i` is again a
one-step image of `i`, provided the rotation set is closed under products and
negations and commensurate with the grid. -/
theorem imgAt_trans (g : GridShape) (rot : List Mat3)
    (h0 : 0 < g.s0) (h1 : 0 < g.s1) (hs2 : 0 < g.s2)
    (hcompat : ∀ A ∈ rot, gridCompat g A)
    (hmul : ∀ A ∈ rot, ∀ B ∈ rot, matMul A B ∈ rot)
    (hneg : ∀ A ∈ rot, negMat A ∈ rot)
    (i : ℕ) (A : Mat3) (hA : A ∈ rot) (B : Mat3) (hB : B ∈ rot) :
    ∃ C ∈ rot, imgAt g (imgAt g i A) B = imgAt g i C := by
  have hmesh : meshH g (imgAt g i A) = foldVec g (matVec (meshH g i) A) :=
    meshH_foldIdx g (matVec (meshH g i) A) h0 h1 hs2
  obtain ⟨e, he⟩ := foldVec_congr_sign g (matVec (meshH g i) A)
  by_cases hee : e = true
  · refine ⟨negMat (matMul A B), hneg _ (hmul A hA B hB), ?_⟩
    show foldIdx g (matVec (meshH g (imgAt g i A)) B) = _
    rw [hmesh]
    have hcg : ∀ j, matVec (foldVec g (matVec (meshH g i) A)) B j % sR g j =
        matVec (fun j => - matVec (meshH g i) A j) B j % sR g j := by
      intro j
      refine matVec_congr g B (hcompat B hB) _ _ (fun j => ?_) j
      have := he j
      rw [hee] at this
      simpa using this
    rw [foldIdx_congr g _ _ hcg, matVec_negvec, ]
    have : (fun j => - matVec (matVec (meshH g i) A) B j) =
        matVec (meshH g i) (negMat (matMul A B)) := by
      rw [matVec_negMat, matVec_matMul]
    rw [this]
    rfl
  · refine ⟨matMul A B, hmul A hA B hB, ?_⟩
    show foldIdx g (matVec (meshH g (imgAt g i A)) B) = _
    rw [hmesh]
    have hcg : ∀ j, matVec (foldVec g (matVec (meshH g i) A)) B j % sR g j =
        matVec (matVec (meshH g i) A) B j % sR g j := by
      intro j
      refine matVec_congr g B (hcompat B hB) _ _ (fun j => ?_) j
      have := he j
      rw [if_neg hee] at this
      exact this
    rw [foldIdx_congr g _ _ hcg, matVec_matMul]
    rfl

/-- Backward transfer: every one-step image of `i` is a one-step image of any
one-step image of `i`, provided the rotation set additionally has right
inverses. -/
theorem imgAt_trans_rev (g : GridShape) (rot : List Mat3)
    (h0 : 0 < g.s0) (h1 : 0 < g.s1) (hs2 : 0 < g.s2)
    (hcompat : ∀ A ∈ rot, gridCompat g A)
    (hmul : ∀ A ∈ rot, ∀ B ∈ rot, matMul A B ∈ rot)
    (hneg : ∀ A ∈ rot, negMat A ∈ rot)
    (hinv : ∀ A ∈ rot, ∃ B ∈ rot, matMul A B = idMat)
    (i : ℕ) (A : Mat3) (hA : A ∈ rot) (C : Mat3) (hC : C ∈ rot) :
    ∃ B ∈ rot, imgAt g i C = imgAt g (imgAt g i A) B := by
  obtain ⟨A', hA', hAA'⟩ := hinv A hA
  have hmesh : meshH g (imgAt g i A) = foldVec g (matVec (meshH g i) A) :=
    meshH_foldIdx g (matVec (meshH g i) A) h0 h1 hs2
  obtain ⟨e, he⟩ := foldVec_congr_sign g (matVec (meshH g i) A)
  have hcollapse : matMul A (matMul A' C) = C := by
    rw [← matMul_assoc, hAA', matMul_id_left]
  by_cases hee : e = true
  · refine ⟨negMat (matMul A' C), hneg _ (hmul A' hA' C hC), ?_⟩
    show _ = foldIdx g (matVec (meshH g (imgAt g i A)) (negMat (matMul A' C)))
    rw [hmesh]
    have hcg : ∀ j, matVec (foldVec g (matVec (meshH g i) A)) (negMat (matMul A' C)) j % sR g j =
        matVec (fun j => - matVec (meshH g i) A j) (negMat (matMul A' C)) j % sR g j := by
      intro j
      refine matVec_congr g _ ?_ _ _ (fun j => ?_) j
      · intro j' k
        have := hcompat (matMul A' C) (hmul A' hA' C hC) j' k
        simpa [negMat, mul_neg] using Dvd.dvd.neg_right this
      · have := he j
        rw [hee] at this
        simpa using this
    rw [foldIdx_congr g _ _ hcg]
    have hx : matVec (fun j => - matVec (meshH g i) A j) (negMat (matMul A' C)) =
        matVec (meshH g i) C := by
      rw [matVec_negMat]
      have hnv := matVec_negvec (matVec (meshH g i) A) (matMul A' C)
      funext j
      have : matVec (fun j => - matVec (meshH g i) A j) (matMul A' C) j =
          - matVec (matVec (meshH g i) A) (matMul A' C) j := by
        rw [hnv]
      simp only [this]
      rw [neg_neg, matVec_matMul, hcollapse]
    rw [hx]
    rfl
  · refine ⟨matMul A' C, hmul A' hA' C hC, ?_⟩
    show _ = foldIdx g (matVec (meshH g (imgAt g i A)) (matMul A' C))
    rw [hmesh]
    have hcg : ∀ j, matVec (foldVec g (matVec (meshH g i) A)) (matMul A' C) j % sR g j =
        matVec (matVec (meshH g i) A) (matMul A' C) j % sR g j := by
      intro j
      refine matVec_congr g _ (hcompat _ (hmul A' hA' C hC)) _ _ (fun j => ?_) j
      have := he j
      rw [if_neg hee] at this
      exact this
    rw [foldIdx_congr g _ _ hcg, matVec_matMul, hcollapse]
    rfl

/-- Canonical-key invariance under the group action (requires a
negation-closed group). -/
theorem keyFold_invariant (g : GridShape) (rot : List Mat3)
    (h0 : 0 < g.s0) (h1 : 0 < g.s1) (hs2 : 0 < g.s2)
    (hid : idMat ∈ rot)
    (hcompat : ∀ A ∈ rot, gridCompat g A)
    (hmul : ∀ A ∈ rot, ∀ B ∈ rot, matMul A B ∈ rot)
    (hneg : ∀ A ∈ rot, negMat A ∈ rot)
    (hinv : ∀ A ∈ rot, ∃ B ∈ rot, matMul A B = idMat)
    (i : ℕ) (A : Mat3) (hA : A ∈ rot) :
    keyFold g rot (imgAt g i A) = keyFold g rot i := by
  have hle1 : keyFold g rot i ≤ keyFold g rot (imgAt g i A) := by
    obtain ⟨B, hB, hBeq⟩ := keyFold_attained g rot (imgAt g i A) hid
    obtain ⟨C, hC, hCeq⟩ := imgAt_trans g rot h0 h1 hs2 hcompat hmul hneg i A hA B hB
    rw [hBeq, hCeq]
    exact keyFold_le_imgAt g rot i C hC
  have hle2 : keyFold g rot (imgAt g i A) ≤ keyFold g rot i := by
    obtain ⟨A0, hA0, hA0eq⟩ := keyFold_attained g rot i hid
    obtain ⟨B, hB, hBeq⟩ :=
      imgAt_trans_rev g rot h0 h1 hs2 hcompat hmul hneg hinv i A hA A0 hA0
    rw [hA0eq, hBeq]
    exact keyFold_le_imgAt g rot (imgAt g i A) B hB
  omega

/-- The canonical key of a canonical key is itself. -/
theorem keyFold_fixed (g : GridShape) (rot : List Mat3)
    (h0 : 0 < g.s0) (h1 : 0 < g.s1) (hs2 : 0 < g.s2)
    (hid : idMat ∈ rot)
    (hcompat : ∀ A ∈ rot, gridCompat g A)
    (hmul : ∀ A ∈ rot, ∀ B ∈ rot, matMul A B ∈ rot)
    (hneg : ∀ A ∈ rot, negMat A ∈ rot)
    (hinv : ∀ A ∈ rot, ∃ B ∈ rot, matMul A B = idMat)
    (i : ℕ) :
    keyFold g rot (keyFold g rot i) = keyFold g rot i := by
  obtain ⟨A, hA, hAeq⟩ := keyFold_attained g rot i hid
  calc keyFold g rot (keyFold g rot i) = keyFold g rot (imgAt g i A) := by rw [hAeq]
  _ = keyFold g rot i := keyFold_invariant g rot h0 h1 hs2 hid hcompat hmul hneg hinv i A hA

/-! ### The reduced key list -/

theorem reduced_sorted (g : GridShape) (rot : List Mat3) :
    (reduced g rot).Sorted (· < ·) :=
  List.Sorted.lt_of_le
    (List.Pairwise.sublist (List.dedup_sublist _) (List.sorted_insertionSort _ _))
    (List.nodup_dedup _)

theorem reduced_nodup (g : GridShape) (rot : List Mat3) : (reduced g rot).Nodup :=
  List.nodup_dedup _

theorem mem_reduced (g : GridShape) (rot : List Mat3) (v : ℕ) :
    v ∈ reduced g rot ↔ ∃ i, i < nH g ∧ keyFold g rot i = v := by
  unfold reduced
  rw [List.mem_dedup, (List.perm_insertionSort _ _).mem_iff]
  unfold keyList
  simp [List.mem_map, List.mem_range]

theorem keyFold_lt_nH (g : GridShape) (rot : List Mat3) (i : ℕ)
    (hi : i < nH g) (hs2 : 0 < g.s2) : keyFold g rot i < nH g := by
  have h := keyFold_le_bare g rot i
  rw [foldIdx_meshH g i hi hs2] at h
  omega

theorem repOf_mem (g : GridShape) (rot : List Mat3) (o : ℕ) (ho : o < nOrbits g rot) :
    repOf g rot o ∈ reduced g rot := by
  unfold repOf
  rw [List.getD_eq_getElem _ _ ho]
  exact List.getElem_mem ho

theorem repOf_inj (g : GridShape) (rot : List Mat3) (o o' : ℕ)
    (ho : o < nOrbits g rot) (ho' : o' < nOrbits g rot)
    (h : repOf g rot o = repOf g rot o') : o = o' := by
  unfold repOf at h
  rw [List.getD_eq_getElem _ _ ho, List.getD_eq_getElem _ _ ho'] at h
  exact (List.Nodup.getElem_inj_iff (reduced_nodup g rot)).mp h

theorem keyFold_repOf (g : GridShape) (rot : List Mat3)
    (h0 : 0 < g.s0) (h1 : 0 < g.s1) (hs2 : 0 < g.s2)
    (hid : idMat ∈ rot)
    (hcompat : ∀ A ∈ rot, gridCompat g A)
    (hmul : ∀ A ∈ rot, ∀ B ∈ rot, matMul A B ∈ rot)
    (hneg : ∀ A ∈ rot, negMat A ∈ rot)
    (hinv : ∀ A ∈ rot, ∃ B ∈ rot, matMul A B = idMat)
    (o : ℕ) (ho : o < nOrbits g rot) :
    keyFold g rot (repOf g rot o) = repOf g rot o := by
  obtain ⟨i, hi, hk⟩ := (mem_reduced g rot _).mp (repOf_mem g rot o ho)
  rw [← hk]
  exact keyFold_fixed g rot h0 h1 hs2 hid hcompat hmul hneg hinv i

theorem rotAt_mem (rot : List Mat3) (s : ℕ) (hs : s < rot.length) : rotAt rot s ∈ rot := by
  unfold rotAt
  rw [List.getD_eq_getElem _ _ hs]
  exact List.getElem_mem hs

/-- A grid index is a member of orbit `o` exactly when its canonical key is
orbit `o`'s representative. -/
theorem member_iff (g : GridShape) (rot : List Mat3)
    (h0 : 0 < g.s0) (h1 : 0 < g.s1) (hs2 : 0 < g.s2)
    (hid : idMat ∈ rot)
    (hcompat : ∀ A ∈ rot, gridCompat g A)
    (hmul : ∀ A ∈ rot, ∀ B ∈ rot, matMul A B ∈ rot)
    (hneg : ∀ A ∈ rot, negMat A ∈ rot)
    (hinv : ∀ A ∈ rot, ∃ B ∈ rot, matMul A B = idMat)
    (i : ℕ) (hi : i < nH g) (o : ℕ) (ho : o < nOrbits g rot) :
    (∃ s ∈ Finset.range rot.length, mIdx g rot o s = i) ↔
      keyFold g rot i = repOf g rot o := by
  constructor
  · rintro ⟨s, hs, hEq⟩
    rw [Finset.mem_range] at hs
    have hrm : rotAt rot s ∈ rot := rotAt_mem rot s hs
    have himg : mIdx g rot o s = imgAt g (repOf g rot o) (rotAt rot s) := rfl
    rw [← hEq, himg]
    rw [keyFold_invariant g rot h0 h1 hs2 hid hcompat hmul hneg hinv _ _ hrm]
    exact keyFold_repOf g rot h0 h1 hs2 hid hcompat hmul hneg hinv o ho
  · intro hk
    obtain ⟨A, hA, hAeq⟩ := keyFold_attained g rot i hid
    obtain ⟨B, hB, hBeq⟩ :=
      imgAt_trans_rev g rot h0 h1 hs2 hcompat hmul hneg hinv i A hA idMat hid
    obtain ⟨s, hs, hgs⟩ := List.mem_iff_getElem.mp hB
    refine ⟨s, Finset.mem_range.mpr hs, ?_⟩
    have hrs : rotAt rot s = B := by
      unfold rotAt
      rw [List.getD_eq_getElem _ _ hs, hgs]
    have hmi : mIdx g rot o s = imgAt g (repOf g rot o) B := by
      unfold mIdx
      rw [hrs]
      rfl
    rw [hmi, ← hk, hAeq, ← hBeq, imgAt_id, foldIdx_meshH g i hi hs2]

/-! ### Claim C4: canonical keys and deterministic orbit numbering -/

/-- **C4.** For every global grid index, the canonical key computed at setup
is the minimum over all group operations of the rotated-and-folded flattened
index of that point (it is attained by some operation and bounds all of
them), and the deduplicated orbit list enumerates exactly the distinct
canonical-key values in strictly increasing order. -/
theorem c4_canonical_key_min (g : GridShape) (rot : List Mat3) (hid : idMat ∈ rot) :
    (∀ i, keyFold g rot i ∈ rot.map (imgAt g i) ∧
        ∀ m ∈ rot.map (imgAt g i), keyFold g rot i ≤ m) ∧
    (reduced g rot).Sorted (· < ·) ∧
    (∀ v, v ∈ reduced g rot ↔ ∃ i, i < nH g ∧ keyFold g rot i = v) := by
  refine ⟨fun i => ⟨?_, fun m hm => ?_⟩, reduced_sorted g rot, mem_reduced g rot⟩
  · obtain ⟨A, hA, hAeq⟩ := keyFold_attained g rot i hid
    rw [hAeq]
    exact List.mem_map_of_mem _ hA
  · rcases List.mem_map.mp hm with ⟨A, hA, rfl⟩
    exact keyFold_le_imgAt g rot i A hA

/-- Witness for C4: the inversion group on the `(1, 1, 4)` grid. -/
theorem c4_canonical_key_min_witness :
    idMat ∈ [idMat, negMat idMat] ∧
    ((∀ i, keyFold ⟨1, 1, 4⟩ [idMat, negMat idMat] i ∈
          [idMat, negMat idMat].map (imgAt ⟨1, 1, 4⟩ i) ∧
        ∀ m ∈ [idMat, negMat idMat].map (imgAt ⟨1, 1, 4⟩ i),
          keyFold ⟨1, 1, 4⟩ [idMat, negMat idMat] i ≤ m) ∧
      (reduced ⟨1, 1, 4⟩ [idMat, negMat idMat]).Sorted (· < ·) ∧
      (∀ v, v ∈ reduced ⟨1, 1, 4⟩ [idMat, negMat idMat] ↔
        ∃ i, i < nH ⟨1, 1, 4⟩ ∧ keyFold ⟨1, 1, 4⟩ [idMat, negMat idMat] i = v)) :=
  ⟨by decide, c4_canonical_key_min ⟨1, 1, 4⟩ [idMat, negMat idMat] (by decide)⟩

/-! ### Claim C3: orbit completeness -/

/-- The three-fold rotation about the body diagonal (in lattice coordinates a
cyclic coordinate permutation), a legitimate crystallographic operation the
sources must handle; its cyclic group is not negation-closed. -/
def permRot : Mat3 := ![![0, 1, 0], ![0, 0, 1], ![1, 0, 0]]

/-- The cyclic group generated by `permRot`. -/
def rotCyc3 : List Mat3 := [idMat, permRot, matMul permRot permRot]

/-- **C3 is false as stated**: on the 4×4×4 grid with the cyclic three-fold
rotation group, grid index 11 (the point `(0, 3, 2)`) maps under `permRot` to
index 25, whose canonical key (5) differs from that of index 11 (which is
11): the rotated-and-folded image does not preserve the canonical key, and
consequently the orbit member sets overlap without being equal. -/
theorem c3_orbit_completeness_counterexample :
    permRot ∈ rotCyc3 ∧ 11 < nH ⟨4, 4, 4⟩ ∧
    foldIdx ⟨4, 4, 4⟩ (matVec (meshH ⟨4, 4, 4⟩ 11) permRot) = 25 ∧
    keyFold ⟨4, 4, 4⟩ rotCyc3 11 = 11 ∧
    keyFold ⟨4, 4, 4⟩ rotCyc3 25 = 5 := by decide

/-- **C3 (amended).** The claim holds when the rotation list is, in addition
to containing the identity, being closed under products and right inverses
and commensurate with the grid (all true of any space group), also closed
under negation (true e.g. for inversion-symmetric groups): then every
rotated-and-folded image of a grid index has the same canonical key, and the
orbits partition the index set, every global index lying in exactly one
orbit's member set.  The counterexample above shows that without negation
closure the code violates the claim. -/
theorem c3_orbit_completeness_amended (g : GridShape) (rot : List Mat3)
    (h0 : 0 < g.s0) (h1 : 0 < g.s1) (hs2 : 0 < g.s2)
    (hid : idMat ∈ rot)
    (hcompat : ∀ A ∈ rot, gridCompat g A)
    (hmul : ∀ A ∈ rot, ∀ B ∈ rot, matMul A B ∈ rot)
    (hneg : ∀ A ∈ rot, negMat A ∈ rot)
    (hinv : ∀ A ∈ rot, ∃ B ∈ rot, matMul A B = idMat) :
    (∀ i, ∀ A ∈ rot,
      keyFold g rot (foldIdx g (matVec (meshH g i) A)) = keyFold g rot i) ∧
    (∀ i, i < nH g →
      ((Finset.range (nOrbits g rot)).filter
        (fun o => ∃ s ∈ Finset.range rot.length, mIdx g rot o s = i)).card = 1) := by
  constructor
  · intro i A hA
    exact keyFold_invariant g rot h0 h1 hs2 hid hcompat hmul hneg hinv i A hA
  · intro i hi
    have hkmem : keyFold g rot i ∈ reduced g rot :=
      (mem_reduced g rot _).mpr ⟨i, hi, rfl⟩
    obtain ⟨oI, hoI, hgI⟩ := List.mem_iff_getElem.mp hkmem
    have hoI' : oI < nOrbits g rot := hoI
    have hrep : repOf g rot oI = keyFold g rot i := by
      unfold repOf
      rw [List.getD_eq_getElem _ _ hoI, hgI]
    have hset : (Finset.range (nOrbits g rot)).filter
        (fun o => ∃ s ∈ Finset.range rot.length, mIdx g rot o s = i) = {oI} := by
      apply Finset.ext
      intro o
      rw [Finset.mem_filter, Finset.mem_range, Finset.mem_singleton]
      constructor
      · rintro ⟨ho, hoE⟩
        have := (member_iff g rot h0 h1 hs2 hid hcompat hmul hneg hinv i hi o ho).mp hoE
        exact repOf_inj g rot o oI ho hoI' (by rw [← this, hrep])
      · intro hEq
        rw [hEq]
        exact ⟨hoI', (member_iff g rot h0 h1 hs2 hid hcompat hmul hneg hinv i hi oI
          hoI').mpr hrep.symm⟩
    rw [hset]
    exact Finset.card_singleton oI

/-- Witness for the amended C3: the inversion group on the `(1, 1, 4)` grid
satisfies all the hypotheses. -/
theorem c3_orbit_completeness_amended_witness :
    (0 < 1 ∧ 0 < 1 ∧ 0 < 4 ∧ idMat ∈ [idMat, negMat idMat] ∧
      (∀ A ∈ [idMat, negMat idMat], gridCompat ⟨1, 1, 4⟩ A) ∧
      (∀ A ∈ [idMat, negMat idMat], ∀ B ∈ [idMat, negMat idMat],
        matMul A B ∈ [idMat, negMat idMat]) ∧
      (∀ A ∈ [idMat, negMat idMat], negMat A ∈ [idMat, negMat idMat]) ∧
      (∀ A ∈ [idMat, negMat idMat], ∃ B ∈ [idMat, negMat idMat], matMul A B = idMat)) ∧
    ((∀ i, ∀ A ∈ [idMat, negMat idMat],
      keyFold ⟨1, 1, 4⟩ [idMat, negMat idMat]
          (foldIdx ⟨1, 1, 4⟩ (matVec (meshH ⟨1, 1, 4⟩ i) A)) =
        keyFold ⟨1, 1, 4⟩ [idMat, negMat idMat] i) ∧
    (∀ i, i < nH ⟨1, 1, 4⟩ →
      ((Finset.range (nOrbits ⟨1, 1, 4⟩ [idMat, negMat idMat])).filter
        (fun o => ∃ s ∈ Finset.range ([idMat, negMat idMat] : List Mat3).length,
          mIdx ⟨1, 1, 4⟩ [idMat, negMat idMat] o s = i)).card = 1)) :=
  ⟨⟨by decide, by decide, by decide, by decide, by decide, by decide, by decide, by decide⟩,
    c3_orbit_completeness_amended ⟨1, 1, 4⟩ [idMat, negMat idMat]
      (by decide) (by decide) (by decide) (by decide) (by decide) (by decide)
      (by decide) (by decide)⟩

/-! ### Claim C6: the trivial group leaves every field unchanged -/

theorem cj_one : cj 1 = 1 := map_one (starRingEnd ℂ)

theorem condConj_false (z : ℂ) : condConj false z = z := rfl

theorem keyFold_trivial (g : GridShape) (i : ℕ) :
    keyFold g [idMat] i = foldIdx g (meshH g i) := by
  unfold keyFold
  rw [List.foldl_cons, List.foldl_nil, matVec_id, min_self]

theorem reduced_trivial (g : GridShape) (hs2 : 0 < g.s2) :
    reduced g [idMat] = List.range (nH g) := by
  have hmap : keyList g [idMat] = List.range (nH g) := by
    unfold keyList
    rw [List.map_congr_left (fun x hx => ?_), List.map_id]
    rw [keyFold_trivial, foldIdx_meshH g x (List.mem_range.mp hx) hs2]
    rfl
  unfold reduced
  rw [hmap, List.Sorted.insertionSort_eq ((List.sorted_lt_range _).le_of_lt),
    List.dedup_eq_self.mpr (List.nodup_range _)]

theorem repOf_trivial (g : GridShape) (hs2 : 0 < g.s2) (o : ℕ) (ho : o < nH g) :
    repOf g [idMat] o = o := by
  unfold repOf
  rw [reduced_trivial g hs2]
  rw [List.getD_eq_getElem _ _ (by simpa using ho)]
  exact List.getElem_range o (by simpa using ho)

/-- **C6.** If the group consists only of the identity operation with zero
translation, then indeed no grid point requires Hermitian folding
(every conjugation flag is false), and a single symmetrization pass leaves
the field data unchanged at every grid index. -/
theorem c6_trivial_group_identity (g : GridShape) (hs2 : 0 < g.s2)
    (v : ℕ → ℂ) (i : ℕ) (hi : i < nH g) :
    (∀ o, o < nOrbits g [idMat] → mConj g [idMat] o 0 = false) ∧
    symmetrize g [idMat] [fun _ => 0] v i = v i := by
  have hnO : nOrbits g [idMat] = nH g := by
    unfold nOrbits
    rw [reduced_trivial g hs2, List.length_range]
  have hidx : ∀ o, o < nH g → mIdx g [idMat] o 0 = o := by
    intro o ho
    unfold mIdx
    rw [repOf_trivial g hs2 o ho]
    show foldIdx g (matVec (meshH g o) idMat) = o
    rw [matVec_id, foldIdx_meshH g o ho hs2]
  have hcnj : ∀ o, o < nH g → mConj g [idMat] o 0 = false := by
    intro o ho
    unfold mConj
    rw [repOf_trivial g hs2 o ho]
    show (get_index g (matVec (meshH g o) idMat)).2 = false
    rw [matVec_id, get_index_meshH g o ho hs2]
  refine ⟨fun o ho => hcnj o (hnO ▸ ho), ?_⟩
  have hph : ∀ o s, phaseAt g [idMat] [fun _ => 0] o s = 1 := by
    intro o s
    unfold phaseAt
    have hpe : phaseExp g [idMat] [fun _ => 0] o s = 0 := by
      unfold phaseExp
      have hz : ∀ k, transAt [fun _ => (0 : ℚ)] s k = 0 := by
        intro k
        unfold transAt
        match s with
        | 0 => rfl
        | Nat.succ t => rfl
      refine Finset.sum_eq_zero fun k _ => ?_
      rw [hz k, mul_zero]
    rw [hpe]
    norm_num
  set ph := phaseAt g [idMat] [fun _ => 0] with hphdef
  set T := indexData g [idMat] with hT
  have hTn : T.n = 1 := rfl
  have hTnO : T.nO = nOrbits g [idMat] := rfl
  have hTidx : T.idx = mIdx g [idMat] := rfl
  have hTcnj : T.cnj = mConj g [idMat] := rfl
  have hw : ∀ o, o < nH g → wOrb T ph v o = v o := by
    intro o ho
    unfold wOrb
    rw [hTn, hTidx, hTcnj, Finset.sum_range_one, hph o 0, hcnj o ho, hidx o ho,
      condConj_false, one_mul]
  have hterm : ∀ o ∈ Finset.range (nH g),
      (∑ s ∈ Finset.range 1,
        if mIdx g [idMat] o s = i then
          condConj (mConj g [idMat] o s) (wOrb T ph v o * cj (ph o s)) else 0) =
      (if o = i then v o else 0) := by
    intro o ho
    have ho' := Finset.mem_range.mp ho
    rw [Finset.sum_range_one, hph o 0, cj_one, mul_one, hcnj o ho', hidx o ho',
      condConj_false, hw o ho']
  have hacc : accum T ph v i = v i := by
    unfold accum
    rw [hTn, hTnO, hnO, hTidx, hTcnj]
    rw [Finset.sum_congr rfl hterm,
      Finset.sum_ite_eq' (Finset.range (nH g)) i v, if_pos (Finset.mem_range.mpr hi)]
  have hcnt : countsD T i = 1 := by
    unfold countsD
    rw [hTn, hTnO, hnO, hTidx]
    have hterm1 : ∀ o ∈ Finset.range (nH g),
        (∑ s ∈ Finset.range 1, if mIdx g [idMat] o s = i then (1 : ℕ) else 0) =
        (if o = i then (fun _ => (1 : ℕ)) o else 0) := by
      intro o ho
      rw [Finset.sum_range_one, hidx o (Finset.mem_range.mp ho)]
    rw [Finset.sum_congr rfl hterm1,
      Finset.sum_ite_eq' (Finset.range (nH g)) i (fun _ => (1 : ℕ)),
      if_pos (Finset.mem_range.mpr hi)]
  show symData T ph v i = v i
  unfold symData
  rw [hacc]
  have : invMultD T i = 1 := by
    unfold invMultD
    rw [hcnt, hTn]
    norm_num
  rw [this]
  norm_num

/-- Witness for C6 on the `(1, 1, 4)` grid at index 1 with a constant
imaginary field. -/
theorem c6_trivial_group_identity_witness :
    (0 < (GridShape.mk 1 1 4).s2 ∧ 1 < nH ⟨1, 1, 4⟩) ∧
    ((∀ o, o < nOrbits ⟨1, 1, 4⟩ [idMat] → mConj ⟨1, 1, 4⟩ [idMat] o 0 = false) ∧
      symmetrize ⟨1, 1, 4⟩ [idMat] [fun _ => 0] (fun _ => Complex.I) 1 =
        (fun _ => Complex.I) 1) :=
  ⟨⟨by decide, by decide⟩,
    c6_trivial_group_identity ⟨1, 1, 4⟩ (by decide) (fun _ => Complex.I) 1 (by decide)⟩

/-! ### Claim C1: the normalization factor -/

/-- The member table of the engine as a multiset of grid indices, one entry
per `(orbit, operation)` slot. -/
def memberMultiset (T : IndexData) : Multiset ℕ :=
  ((Finset.range T.nO) ×ˢ (Finset.range T.n)).val.map (fun p => T.idx p.1 p.2)

theorem countsD_eq_count (T : IndexData) (i : ℕ) :
    countsD T i = Multiset.count i (memberMultiset T) := by
  unfold countsD memberMultiset
  rw [Multiset.count_map]
  have hfv : ((Finset.range T.nO ×ˢ Finset.range T.n).filter
      (fun p => i = T.idx p.1 p.2)).val =
      ((Finset.range T.nO ×ˢ Finset.range T.n).val.filter
        (fun p => i = T.idx p.1 p.2)) := rfl
  rw [← hfv]
  rw [show Multiset.card ((Finset.range T.nO ×ˢ Finset.range T.n).filter
      (fun p => i = T.idx p.1 p.2)).val =
      ((Finset.range T.nO ×ˢ Finset.range T.n).filter
        (fun p => i = T.idx p.1 p.2)).card from rfl]
  rw [Finset.card_filter]
  rw [Finset.sum_product (Finset.range T.nO) (Finset.range T.n)
    (fun p => if i = T.idx p.1 p.2 then 1 else 0)]
  refine Finset.sum_congr rfl fun o _ => Finset.sum_congr rfl fun s _ => ?_
  simp [eq_comm]

/-- Following the spec's words (a refinement target, not the source):
"multiplicity = ... number of *distinct* member indices" of an orbit. -/
def specDistinctMembers (g : GridShape) (rot : List Mat3) (o : ℕ) : ℕ :=
  (((List.range rot.length).map (mIdx g rot o)).dedup).length

/-- **C1 is false as stated**: on the `(1, 1, 4)` grid with the inversion
group `{1, -1}`, grid index 1 lies in orbit 1, whose distinct member count is
1, so the claimed factor would be `1/(2·1) = 1/2`; the code's
`inv_multiplicity` at that index is `(1/2)/2 = 1/4`, because the stored
multiplicity is the number of `(orbit, operation)` slots hitting the index
(here both operations map the representative to index 1), not the number of
distinct member indices. -/
theorem c1_normalization_counterexample :
    (∃ s ∈ Finset.range ([idMat, negMat idMat] : List Mat3).length,
      mIdx ⟨1, 1, 4⟩ [idMat, negMat idMat] 1 s = 1) ∧
    specDistinctMembers ⟨1, 1, 4⟩ [idMat, negMat idMat] 1 = 1 ∧
    ([idMat, negMat idMat] : List Mat3).length = 2 ∧
    invMultD (indexData ⟨1, 1, 4⟩ [idMat, negMat idMat]) 1 = 1 / 4 ∧
    (1 : ℚ) / (2 * 1) ≠ 1 / 4 := by
  refine ⟨by decide, by decide, by decide, ?_, by norm_num⟩
  have hc : countsD (indexData ⟨1, 1, 4⟩ [idMat, negMat idMat]) 1 = 2 := by decide
  have hn : (indexData ⟨1, 1, 4⟩ [idMat, negMat idMat]).n = 2 := by decide
  unfold invMultD
  rw [hc, hn]
  norm_num

/-- **C1 (amended).** The final step of a symmetrization call multiplies the
value accumulated at each grid index by
`inv_multiplicity = (1/|group|) / occurrences`, where `occurrences` is the
number of `(orbit, operation)` slots of the member table mapping to that
index (the multiplicity counted with repetition, `|group| / (number of
distinct members)` for a true group action), not the number of distinct
member indices. -/
theorem c1_normalization_amended (T : IndexData) (ph : ℕ → ℕ → ℂ)
    (v : ℕ → ℂ) (i : ℕ) :
    symData T ph v i = ((invMultD T i : ℚ) : ℂ) * accum T ph v i ∧
    invMultD T i = 1 / ((T.n : ℚ) * (Multiset.count i (memberMultiset T) : ℚ)) := by
  refine ⟨rfl, ?_⟩
  unfold invMultD
  rw [countsD_eq_count, div_div]

/-! ### Claim C5: idempotence of symmetrization -/

/-- Sum of the phases of the unconjugated slots of orbit `o` feeding grid
index `i` (the direct gather weight of `i`). -/
noncomputable def A0 (T : IndexData) (ph : ℕ → ℕ → ℂ) (o i : ℕ) : ℂ :=
  ∑ s ∈ Finset.range T.n, if T.idx o s = i ∧ T.cnj o s = false then ph o s else 0

/-- Sum of the phases of the conjugated slots of orbit `o` feeding grid
index `i` (the conjugated gather weight of `i`). -/
noncomputable def A1 (T : IndexData) (ph : ℕ → ℕ → ℂ) (o i : ℕ) : ℂ :=
  ∑ s ∈ Finset.range T.n, if T.idx o s = i ∧ T.cnj o s = true then ph o s else 0

/-- The set of member indices of orbit `o`. -/
def members (T : IndexData) (o : ℕ) : Finset ℕ := (Finset.range T.n).image (T.idx o)

/-- Number of slots of orbit `o` hitting index `i`. -/
def cntO (T : IndexData) (o i : ℕ) : ℕ :=
  ∑ s ∈ Finset.range T.n, if T.idx o s = i then 1 else 0

noncomputable def alphaO (T : IndexData) (ph : ℕ → ℕ → ℂ) (o : ℕ) : ℂ :=
  ∑ i ∈ members T o,
    (A0 T ph o i * cj (A0 T ph o i) + A1 T ph o i * cj (A1 T ph o i)) / (cntO T o i : ℂ)

noncomputable def betaO (T : IndexData) (ph : ℕ → ℕ → ℂ) (o : ℕ) : ℂ :=
  ∑ i ∈ members T o, 2 * A0 T ph o i * A1 T ph o i / (cntO T o i : ℂ)

/-- Orbit regime P: no effective conjugation coupling (`β = 0`) and full
weight (`α = n`); holds e.g. when every member index is fed by slots of a
single conjugation sense with a common phase. -/
def orbitPlain (T : IndexData) (ph : ℕ → ℕ → ℂ) (o : ℕ) : Prop :=
  betaO T ph o = 0 ∧ alphaO T ph o = (T.n : ℂ)

/-- Orbit regime D: every member index's conjugated weight is a fixed unit
multiple of the conjugate of its direct weight, with half weight
(`α = n / 2`); holds for orbits pairing each member with its Hermitian
partner. -/
def orbitPaired (T : IndexData) (ph : ℕ → ℕ → ℂ) (o : ℕ) : Prop :=
  ∃ θ : ℂ, θ * cj θ = 1 ∧
    (∀ i ∈ members T o, A1 T ph o i = θ * cj (A0 T ph o i)) ∧
    alphaO T ph o = (T.n : ℂ) / 2

/-- Orbit regime Z: all gather weights vanish (destructive interference of a
nonsymmorphic orbit); the orbit contributes nothing. -/
def orbitNull (T : IndexData) (ph : ℕ → ℕ → ℂ) (o : ℕ) : Prop :=
  ∀ i ∈ members T o, A0 T ph o i = 0 ∧ A1 T ph o i = 0

/-- Regrouping a sum over an orbit's slots by the member index each slot
feeds. -/
theorem sum_slots_regroup (T : IndexData) (ph : ℕ → ℕ → ℂ) (o : ℕ) (f h : ℕ → ℂ) :
    (∑ s ∈ Finset.range T.n,
      ph o s * (if T.cnj o s = true then h (T.idx o s) else f (T.idx o s))) =
    ∑ i ∈ members T o, (A0 T ph o i * f i + A1 T ph o i * h i) := by
  rw [← Finset.sum_fiberwise_of_maps_to
    (fun s hs => Finset.mem_image_of_mem (T.idx o) hs)
    (fun s => ph o s * (if T.cnj o s = true then h (T.idx o s) else f (T.idx o s)))]
  refine Finset.sum_congr rfl fun i hi => ?_
  have hfix : (∑ s ∈ (Finset.range T.n).filter (fun s => T.idx o s = i),
      ph o s * (if T.cnj o s = true then h (T.idx o s) else f (T.idx o s))) =
      ∑ s ∈ (Finset.range T.n).filter (fun s => T.idx o s = i),
        (if T.cnj o s = true then ph o s * h i else ph o s * f i) := by
    refine Finset.sum_congr rfl fun s hs => ?_
    rw [(Finset.mem_filter.mp hs).2, mul_ite]
  rw [hfix, Finset.sum_ite (fun s => ph o s * h i) (fun s => ph o s * f i)]
  rw [Finset.filter_filter, Finset.filter_filter]
  have hA1 : (∑ s ∈ (Finset.range T.n).filter
      (fun s => T.idx o s = i ∧ T.cnj o s = true), ph o s) = A1 T ph o i := by
    rw [Finset.sum_filter]
    rfl
  have hA0 : (∑ s ∈ (Finset.range T.n).filter
      (fun s => T.idx o s = i ∧ ¬ T.cnj o s = true), ph o s) = A0 T ph o i := by
    rw [Finset.sum_filter]
    unfold A0
    refine Finset.sum_congr rfl fun s _ => ?_
    simp only [Bool.not_eq_true]
  rw [← Finset.sum_mul, ← Finset.sum_mul, hA1, hA0]
  ring

/-- The gather sum of an orbit, regrouped by member index. -/
theorem wOrb_regroup (T : IndexData) (ph : ℕ → ℕ → ℂ) (v : ℕ → ℂ) (o : ℕ) :
    wOrb T ph v o =
      ∑ i ∈ members T o, (A0 T ph o i * v i + A1 T ph o i * cj (v i)) := by
  unfold wOrb
  rw [← sum_slots_regroup T ph o v (fun i => cj (v i))]
  rfl

/-- Under orbit disjointness, the global occurrence count at a member of
orbit `o` is the per-orbit slot count. -/
theorem countsD_eq_cntO (T : IndexData)
    (hdisj : ∀ o < T.nO, ∀ o' < T.nO, ∀ s < T.n, ∀ s' < T.n,
      T.idx o s = T.idx o' s' → o = o')
    (o : ℕ) (ho : o < T.nO) (i : ℕ) (hi : i ∈ members T o) :
    countsD T i = cntO T o i := by
  obtain ⟨s0, hs0, hs0i⟩ := Finset.mem_image.mp hi
  unfold countsD cntO
  rw [Finset.sum_eq_single o]
  · intro b hb hbo
    refine Finset.sum_eq_zero fun s hs => ?_
    rw [if_neg]
    intro hEq
    exact hbo (hdisj b (Finset.mem_range.mp hb) o ho s (Finset.mem_range.mp hs)
      s0 (Finset.mem_range.mp hs0) (by rw [hEq, hs0i]))
  · intro hno
    exact absurd (Finset.mem_range.mpr ho) hno

/-- Under orbit disjointness, the scatter-accumulated value at a member of
orbit `o` collapses to that orbit's contribution. -/
theorem accum_eq (T : IndexData) (ph : ℕ → ℕ → ℂ)
    (hdisj : ∀ o < T.nO, ∀ o' < T.nO, ∀ s < T.n, ∀ s' < T.n,
      T.idx o s = T.idx o' s' → o = o')
    (v : ℕ → ℂ) (o : ℕ) (ho : o < T.nO) (i : ℕ) (hi : i ∈ members T o) :
    accum T ph v i =
      cj (A0 T ph o i) * wOrb T ph v o + A1 T ph o i * cj (wOrb T ph v o) := by
  obtain ⟨s0, hs0, hs0i⟩ := Finset.mem_image.mp hi
  unfold accum
  rw [Finset.sum_eq_single o]
  · rw [← Finset.sum_filter]
    have hct : ∀ z : ℂ, condConj true z = cj z := fun z => rfl
    have hsplit : (∑ s ∈ (Finset.range T.n).filter (fun s => T.idx o s = i),
        condConj (T.cnj o s) (wOrb T ph v o * cj (ph o s))) =
        (∑ s ∈ (Finset.range T.n).filter (fun s => T.idx o s = i),
          (if T.cnj o s = true then cj (wOrb T ph v o * cj (ph o s))
            else wOrb T ph v o * cj (ph o s))) := by
      refine Finset.sum_congr rfl fun s _ => ?_
      by_cases hb : T.cnj o s = true
      · rw [hb, hct, if_pos rfl]
      · have hb' : T.cnj o s = false := by simpa using hb
        rw [hb', condConj_false, if_neg (by simp)]
    rw [hsplit, Finset.sum_ite _ _, Finset.filter_filter, Finset.filter_filter]
    have hc1 : (∑ s ∈ (Finset.range T.n).filter
        (fun s => T.idx o s = i ∧ T.cnj o s = true),
        cj (wOrb T ph v o * cj (ph o s))) =
        A1 T ph o i * cj (wOrb T ph v o) := by
      have : ∀ s, cj (wOrb T ph v o * cj (ph o s)) = ph o s * cj (wOrb T ph v o) := by
        intro s
        unfold cj
        rw [map_mul, Complex.conj_conj]
        ring
      rw [Finset.sum_congr rfl fun s _ => this s, ← Finset.sum_mul]
      have hA1 : (∑ s ∈ (Finset.range T.n).filter
          (fun s => T.idx o s = i ∧ T.cnj o s = true), ph o s) = A1 T ph o i := by
        rw [Finset.sum_filter]
        rfl
      rw [hA1]
    have hc0 : (∑ s ∈ (Finset.range T.n).filter
        (fun s => T.idx o s = i ∧ ¬ T.cnj o s = true),
        wOrb T ph v o * cj (ph o s)) =
        cj (A0 T ph o i) * wOrb T ph v o := by
      have hA0 : (∑ s ∈ (Finset.range T.n).filter
          (fun s => T.idx o s = i ∧ ¬ T.cnj o s = true), ph o s) = A0 T ph o i := by
        rw [Finset.sum_filter]
        unfold A0
        refine Finset.sum_congr rfl fun s _ => ?_
        simp only [Bool.not_eq_true]
      calc (∑ s ∈ (Finset.range T.n).filter
          (fun s => T.idx o s = i ∧ ¬ T.cnj o s = true),
          wOrb T ph v o * cj (ph o s)) =
          wOrb T ph v o * ∑ s ∈ (Finset.range T.n).filter
            (fun s => T.idx o s = i ∧ ¬ T.cnj o s = true), cj (ph o s) :=
        (Finset.mul_sum _ _ _).symm
      _ = wOrb T ph v o * cj (∑ s ∈ (Finset.range T.n).filter
            (fun s => T.idx o s = i ∧ ¬ T.cnj o s = true), ph o s) := by
        unfold cj
        rw [map_sum]
      _ = cj (A0 T ph o i) * wOrb T ph v o := by
        rw [hA0]
        ring
    rw [hc1, hc0]
    ring
  · intro b hb hbo
    refine Finset.sum_eq_zero fun s hs => ?_
    rw [if_neg]
    intro hEq
    exact hbo (hdisj b (Finset.mem_range.mp hb) o ho s (Finset.mem_range.mp hs)
      s0 (Finset.mem_range.mp hs0) (by rw [hEq, hs0i]))
  · intro hno
    exact absurd (Finset.mem_range.mpr ho) hno

/-- Grid indices fed by no orbit accumulate nothing. -/
theorem accum_zero (T : IndexData) (ph : ℕ → ℕ → ℂ) (v : ℕ → ℂ) (i : ℕ)
    (hnone : ∀ o, o < T.nO → i ∉ members T o) :
    accum T ph v i = 0 := by
  unfold accum
  refine Finset.sum_eq_zero fun o ho => Finset.sum_eq_zero fun s hs => ?_
  rw [if_neg]
  intro hEq
  exact hnone o (Finset.mem_range.mp ho)
    (hEq ▸ Finset.mem_image_of_mem (T.idx o) hs)

theorem symData_member (T : IndexData) (ph : ℕ → ℕ → ℂ)
    (hdisj : ∀ o < T.nO, ∀ o' < T.nO, ∀ s < T.n, ∀ s' < T.n,
      T.idx o s = T.idx o' s' → o = o')
    (v : ℕ → ℂ) (o : ℕ) (ho : o < T.nO) (i : ℕ) (hi : i ∈ members T o) :
    symData T ph v i = ((invMultD T i : ℚ) : ℂ) *
      (cj (A0 T ph o i) * wOrb T ph v o + A1 T ph o i * cj (wOrb T ph v o)) := by
  unfold symData
  rw [accum_eq T ph hdisj v o ho i hi]

/-- One re-gather of a symmetrized field, in terms of the orbit invariants
`α` and `β`. -/
theorem wOrb_symData_formula (T : IndexData) (ph : ℕ → ℕ → ℂ)
    (hdisj : ∀ o < T.nO, ∀ o' < T.nO, ∀ s < T.n, ∀ s' < T.n,
      T.idx o s = T.idx o' s' → o = o')
    (o : ℕ) (ho : o < T.nO) (v : ℕ → ℂ) :
    wOrb T ph (symData T ph v) o =
      1 / (T.n : ℂ) * (alphaO T ph o * wOrb T ph v o +
        betaO T ph o * cj (wOrb T ph v o)) := by
  rw [wOrb_regroup]
  have hterm : ∀ i ∈ members T o,
      A0 T ph o i * symData T ph v i + A1 T ph o i * cj (symData T ph v i) =
      1 / (T.n : ℂ) *
        (((A0 T ph o i * cj (A0 T ph o i) + A1 T ph o i * cj (A1 T ph o i)) /
            (cntO T o i : ℂ)) * wOrb T ph v o +
          (2 * A0 T ph o i * A1 T ph o i / (cntO T o i : ℂ)) *
            cj (wOrb T ph v o)) := by
    intro i hi
    rw [symData_member T ph hdisj v o ho i hi]
    have hcnt : countsD T i = cntO T o i := countsD_eq_cntO T hdisj o ho i hi
    have hκ : ((invMultD T i : ℚ) : ℂ) = (1 / (T.n : ℂ)) / (cntO T o i : ℂ) := by
      unfold invMultD
      rw [hcnt]
      push_cast
      ring
    have hcj : cj (((invMultD T i : ℚ) : ℂ) *
        (cj (A0 T ph o i) * wOrb T ph v o + A1 T ph o i * cj (wOrb T ph v o))) =
        ((invMultD T i : ℚ) : ℂ) *
          (A0 T ph o i * cj (wOrb T ph v o) + cj (A1 T ph o i) * wOrb T ph v o) := by
      unfold cj
      rw [map_mul, map_add, map_mul, map_mul, Complex.conj_conj, Complex.conj_conj,
        map_ratCast]
    rw [hcj, hκ]
    ring
  rw [Finset.sum_congr rfl hterm, ← Finset.mul_sum]
  unfold alphaO betaO
  rw [Finset.sum_add_distrib, ← Finset.sum_mul, ← Finset.sum_mul]

/-- The re-gathered orbit sum of a symmetrized field equals the original
orbit sum, in each of the three orbit regimes. -/
theorem wOrb_symData_eq (T : IndexData) (ph : ℕ → ℕ → ℂ) (hn : 0 < T.n)
    (hdisj : ∀ o < T.nO, ∀ o' < T.nO, ∀ s < T.n, ∀ s' < T.n,
      T.idx o s = T.idx o' s' → o = o')
    (o : ℕ) (ho : o < T.nO)
    (hc : orbitPlain T ph o ∨ orbitPaired T ph o ∨ orbitNull T ph o)
    (v : ℕ → ℂ) :
    wOrb T ph (symData T ph v) o = wOrb T ph v o := by
  have hform := wOrb_symData_formula T ph hdisj o ho v
  have hnne : (T.n : ℂ) ≠ 0 := Nat.cast_ne_zero.mpr (by omega)
  rcases hc with ⟨hβ, hα⟩ | ⟨θ, hθ, hA1, hα⟩ | hZ
  · rw [hform, hβ, hα]
    field_simp
  · have hA1cj : ∀ i ∈ members T o,
        A1 T ph o i * cj (A1 T ph o i) = A0 T ph o i * cj (A0 T ph o i) := by
      intro i hi
      rw [hA1 i hi]
      have hcc : cj (θ * cj (A0 T ph o i)) = cj θ * A0 T ph o i := by
        unfold cj
        rw [map_mul, Complex.conj_conj]
      rw [hcc]
      calc θ * cj (A0 T ph o i) * (cj θ * A0 T ph o i) =
          (θ * cj θ) * (A0 T ph o i * cj (A0 T ph o i)) := by ring
      _ = A0 T ph o i * cj (A0 T ph o i) := by rw [hθ]; ring
    have hβθ : betaO T ph o = θ * alphaO T ph o := by
      unfold betaO alphaO
      rw [Finset.mul_sum]
      refine Finset.sum_congr rfl fun i hi => ?_
      rw [hA1cj i hi]
      rw [hA1 i hi]
      ring
    have hwach : θ * cj (wOrb T ph v o) = wOrb T ph v o := by
      rw [wOrb_regroup]
      have hx : (∑ i ∈ members T o,
          (A0 T ph o i * v i + A1 T ph o i * cj (v i))) =
          (∑ i ∈ members T o, A0 T ph o i * v i) +
            θ * cj (∑ i ∈ members T o, A0 T ph o i * v i) := by
        unfold cj
        rw [map_sum, Finset.mul_sum, ← Finset.sum_add_distrib]
        refine Finset.sum_congr rfl fun i hi => ?_
        rw [hA1 i hi]
        unfold cj
        rw [map_mul]
        ring
      rw [hx]
      set u := ∑ i ∈ members T o, A0 T ph o i * v i with hu
      unfold cj
      rw [map_add, map_mul, Complex.conj_conj]
      show θ * ((starRingEnd ℂ) u + (starRingEnd ℂ) θ * u) = u + θ * (starRingEnd ℂ) u
      have hθ' : θ * (starRingEnd ℂ) θ = 1 := hθ
      linear_combination u * hθ'
    rw [hform, hβθ, hα]
    rw [show θ * ((T.n : ℂ) / 2) * cj (wOrb T ph v o) =
        (T.n : ℂ) / 2 * (θ * cj (wOrb T ph v o)) from by ring, hwach]
    field_simp
  · have hw0 : wOrb T ph v o = 0 := by
      rw [wOrb_regroup]
      refine Finset.sum_eq_zero fun i hi => ?_
      rw [(hZ i hi).1, (hZ i hi).2]
      ring
    have hw0' : wOrb T ph (symData T ph v) o = 0 := by
      rw [wOrb_regroup]
      refine Finset.sum_eq_zero fun i hi => ?_
      rw [(hZ i hi).1, (hZ i hi).2]
      ring
    rw [hw0, hw0']

/-- **C5 (amended).** Symmetrization is idempotent over exact complex
arithmetic for every field, provided every orbit of the engine falls into
one of the three regimes P, D, Z above (as holds whenever no orbit mixes
self-conjugate planes of the folded axis with conjugation-requiring
members); the counterexample below shows the unrestricted claim fails. -/
theorem c5_idempotent_amended (T : IndexData) (ph : ℕ → ℕ → ℂ) (hn : 0 < T.n)
    (hdisj : ∀ o < T.nO, ∀ o' < T.nO, ∀ s < T.n, ∀ s' < T.n,
      T.idx o s = T.idx o' s' → o = o')
    (hcase : ∀ o < T.nO, orbitPlain T ph o ∨ orbitPaired T ph o ∨ orbitNull T ph o)
    (v : ℕ → ℂ) (i : ℕ) :
    symData T ph (symData T ph v) i = symData T ph v i := by
  by_cases hex : ∃ o, o < T.nO ∧ i ∈ members T o
  · obtain ⟨o, ho, hio⟩ := hex
    rw [symData_member T ph hdisj (symData T ph v) o ho i hio,
      symData_member T ph hdisj v o ho i hio,
      wOrb_symData_eq T ph hn hdisj o ho (hcase o ho) v]
  · push_neg at hex
    show ((invMultD T i : ℚ) : ℂ) * accum T ph (symData T ph v) i =
      ((invMultD T i : ℚ) : ℂ) * accum T ph v i
    rw [accum_zero T ph (symData T ph v) i hex, accum_zero T ph v i hex]


theorem transAt_replicate_zero (m s : ℕ) :
    transAt (List.replicate m (fun _ => (0 : ℚ))) s = fun _ => 0 := by
  unfold transAt
  rcases Nat.lt_or_ge s m with h | h
  · rw [List.getD_eq_getElem _ _ (by simpa using h)]
    simp
  · rw [List.getD_eq_default _ _ (by simpa using h)]

theorem phaseAt_replicate_zero (g : GridShape) (rot : List Mat3) (m o s : ℕ) :
    phaseAt g rot (List.replicate m (fun _ => (0 : ℚ))) o s = 1 := by
  have he : phaseExp g rot (List.replicate m (fun _ => (0 : ℚ))) o s = 0 := by
    unfold phaseExp
    rw [transAt_replicate_zero]
    simp
  unfold phaseAt
  rw [he]
  simp


/-- In the `(1,1,4)` inversion engine with zero translations, every orbit is
in regime P or D. -/
theorem inv114_orbit_cases : ∀ o < (indexData ⟨1, 1, 4⟩ [idMat, negMat idMat]).nO,
    orbitPlain (indexData ⟨1, 1, 4⟩ [idMat, negMat idMat])
      (phaseAt ⟨1, 1, 4⟩ [idMat, negMat idMat] (List.replicate 2 (fun _ => 0))) o ∨
    orbitPaired (indexData ⟨1, 1, 4⟩ [idMat, negMat idMat])
      (phaseAt ⟨1, 1, 4⟩ [idMat, negMat idMat] (List.replicate 2 (fun _ => 0))) o ∨
    orbitNull (indexData ⟨1, 1, 4⟩ [idMat, negMat idMat])
      (phaseAt ⟨1, 1, 4⟩ [idMat, negMat idMat] (List.replicate 2 (fun _ => 0))) o := by
  intro o ho
  have hnO : (indexData ⟨1, 1, 4⟩ [idMat, negMat idMat]).nO = 3 := by decide
  have hph : ∀ o s, phaseAt ⟨1, 1, 4⟩ [idMat, negMat idMat]
      (List.replicate 2 (fun _ => (0 : ℚ))) o s = 1 :=
    fun o s => phaseAt_replicate_zero _ _ 2 o s
  set T := indexData ⟨1, 1, 4⟩ [idMat, negMat idMat] with hT
  set ph := phaseAt ⟨1, 1, 4⟩ [idMat, negMat idMat] (List.replicate 2 (fun _ => (0 : ℚ)))
    with hph2
  have hn2 : T.n = 2 := by decide
  have hA0 : ∀ o i, A0 T ph o i =
      (if T.idx o 0 = i ∧ T.cnj o 0 = false then (1 : ℂ) else 0) +
        (if T.idx o 1 = i ∧ T.cnj o 1 = false then 1 else 0) := by
    intro o i
    unfold A0
    rw [hn2, Finset.sum_range_succ, Finset.sum_range_succ, Finset.sum_range_zero,
      hph, hph]
    ring
  have hA1 : ∀ o i, A1 T ph o i =
      (if T.idx o 0 = i ∧ T.cnj o 0 = true then (1 : ℂ) else 0) +
        (if T.idx o 1 = i ∧ T.cnj o 1 = true then 1 else 0) := by
    intro o i
    unfold A1
    rw [hn2, Finset.sum_range_succ, Finset.sum_range_succ, Finset.sum_range_zero,
      hph, hph]
    ring
  rw [hnO] at ho
  interval_cases o
  · left
    have hm : members T 0 = {0} := by decide
    have h0 : A0 T ph 0 0 = 2 := by
      rw [hA0, if_pos (by decide), if_pos (by decide)]
      norm_num
    have h1 : A1 T ph 0 0 = 0 := by
      rw [hA1, if_neg (by decide), if_neg (by decide)]
      norm_num
    have hcnt : cntO T 0 0 = 2 := by decide
    constructor
    · unfold betaO
      rw [hm, Finset.sum_singleton, h0, h1, hcnt]
      norm_num
    · unfold alphaO
      rw [hm, Finset.sum_singleton, h0, h1, hcnt, hn2]
      unfold cj
      norm_num [map_ofNat]
  · right
    left
    have hm : members T 1 = {1} := by decide
    have h0 : A0 T ph 1 1 = 1 := by
      rw [hA0, if_pos (by decide), if_neg (by decide)]
      norm_num
    have h1 : A1 T ph 1 1 = 1 := by
      rw [hA1, if_neg (by decide), if_pos (by decide)]
      norm_num
    have hcnt : cntO T 1 1 = 2 := by decide
    refine ⟨1, by norm_num [cj], ?_, ?_⟩
    · intro i hi
      rw [hm, Finset.mem_singleton] at hi
      rw [hi, h0, h1]
      norm_num [cj]
    · unfold alphaO
      rw [hm, Finset.sum_singleton, h0, h1, hcnt, hn2]
      unfold cj
      norm_num [map_ofNat]
  · left
    have hm : members T 2 = {2} := by decide
    have h0 : A0 T ph 2 2 = 2 := by
      rw [hA0, if_pos (by decide), if_pos (by decide)]
      norm_num
    have h1 : A1 T ph 2 2 = 0 := by
      rw [hA1, if_neg (by decide), if_neg (by decide)]
      norm_num
    have hcnt : cntO T 2 2 = 2 := by decide
    constructor
    · unfold betaO
      rw [hm, Finset.sum_singleton, h0, h1, hcnt]
      norm_num
    · unfold alphaO
      rw [hm, Finset.sum_singleton, h0, h1, hcnt, hn2]
      unfold cj
      norm_num [map_ofNat]

theorem c5_idempotent_amended_witness :
    0 < (indexData ⟨1, 1, 4⟩ [idMat, negMat idMat]).n ∧
    symData (indexData ⟨1, 1, 4⟩ [idMat, negMat idMat])
        (phaseAt ⟨1, 1, 4⟩ [idMat, negMat idMat] (List.replicate 2 (fun _ => 0)))
        (symData (indexData ⟨1, 1, 4⟩ [idMat, negMat idMat])
          (phaseAt ⟨1, 1, 4⟩ [idMat, negMat idMat] (List.replicate 2 (fun _ => 0)))
          (fun i => if i = 1 then Complex.I else 0)) 1 =
      symData (indexData ⟨1, 1, 4⟩ [idMat, negMat idMat])
        (phaseAt ⟨1, 1, 4⟩ [idMat, negMat idMat] (List.replicate 2 (fun _ => 0)))
        (fun i => if i = 1 then Complex.I else 0) 1 :=
  ⟨by decide,
    c5_idempotent_amended (indexData ⟨1, 1, 4⟩ [idMat, negMat idMat])
      (phaseAt ⟨1, 1, 4⟩ [idMat, negMat idMat] (List.replicate 2 (fun _ => 0)))
      (by decide) (by decide) inv114_orbit_cases
      (fun i => if i = 1 then Complex.I else 0) 1⟩


/-- Four-fold rotation about the second axis (in lattice coordinates, acting
on row vectors). -/
def rotY : Mat3 := ![![0, 0, 1], ![0, 1, 0], ![-1, 0, 0]]

/-- The cyclic group C4 generated by `rotY`. -/
def rotC4y : List Mat3 := [idMat, rotY, matMul rotY rotY, matMul rotY (matMul rotY rotY)]

/-- **C5 (counterexample).** Symmetrization is not idempotent in general:
for the C4-about-y engine on the `(4,1,4)` grid with zero translations, the
orbit of index 3 mixes a self-conjugate plane member with a
conjugation-requiring member, and the field `I·e₃` maps to `I/4` at index 3
after one pass but to `I/8` after two. -/
theorem c5_idempotent_counterexample :
    symmetrize ⟨4, 1, 4⟩ rotC4y (List.replicate 4 (fun _ => 0))
        (symmetrize ⟨4, 1, 4⟩ rotC4y (List.replicate 4 (fun _ => 0))
          (fun i => if i = 3 then Complex.I else 0)) 3 ≠
      symmetrize ⟨4, 1, 4⟩ rotC4y (List.replicate 4 (fun _ => 0))
        (fun i => if i = 3 then Complex.I else 0) 3 := by
  have hph : ∀ o s, phaseAt ⟨4, 1, 4⟩ rotC4y
      (List.replicate 4 (fun _ => (0 : ℚ))) o s = 1 :=
    fun o s => phaseAt_replicate_zero _ _ 4 o s
  set T := indexData ⟨4, 1, 4⟩ rotC4y with hT
  set ph := phaseAt ⟨4, 1, 4⟩ rotC4y (List.replicate 4 (fun _ => (0 : ℚ))) with hPh
  set v : ℕ → ℂ := fun i => if i = 3 then Complex.I else 0 with hv
  have hdisjC : ∀ o < T.nO, ∀ o2 < T.nO, ∀ s < T.n, ∀ s2 < T.n,
      T.idx o s = T.idx o2 s2 → o = o2 := by decide
  have hn4 : T.n = 4 := by decide
  have ho1 : 1 < T.nO := by decide
  have hm3 : (3 : ℕ) ∈ members T 1 := by decide
  have hm1 : (1 : ℕ) ∈ members T 1 := by decide
  have hm9 : (9 : ℕ) ∈ members T 1 := by decide
  have hA0e : ∀ o i, A0 T ph o i =
      (if T.idx o 0 = i ∧ T.cnj o 0 = false then (1 : ℂ) else 0) +
      (if T.idx o 1 = i ∧ T.cnj o 1 = false then 1 else 0) +
      (if T.idx o 2 = i ∧ T.cnj o 2 = false then 1 else 0) +
      (if T.idx o 3 = i ∧ T.cnj o 3 = false then 1 else 0) := by
    intro o i
    unfold A0
    rw [hn4, Finset.sum_range_succ, Finset.sum_range_succ, Finset.sum_range_succ,
      Finset.sum_range_succ, Finset.sum_range_zero, hph, hph, hph, hph]
    ring
  have hA1e : ∀ o i, A1 T ph o i =
      (if T.idx o 0 = i ∧ T.cnj o 0 = true then (1 : ℂ) else 0) +
      (if T.idx o 1 = i ∧ T.cnj o 1 = true then 1 else 0) +
      (if T.idx o 2 = i ∧ T.cnj o 2 = true then 1 else 0) +
      (if T.idx o 3 = i ∧ T.cnj o 3 = true then 1 else 0) := by
    intro o i
    unfold A1
    rw [hn4, Finset.sum_range_succ, Finset.sum_range_succ, Finset.sum_range_succ,
      Finset.sum_range_succ, Finset.sum_range_zero, hph, hph, hph, hph]
    ring
  have hA03 : A0 T ph 1 3 = 1 := by
    rw [hA0e, if_neg (by decide), if_neg (by decide), if_neg (by decide),
      if_pos (by decide)]
    norm_num
  have hA13 : A1 T ph 1 3 = 0 := by
    rw [hA1e, if_neg (by decide), if_neg (by decide), if_neg (by decide),
      if_neg (by decide)]
    norm_num
  have hA01 : A0 T ph 1 1 = 1 := by
    rw [hA0e, if_pos (by decide), if_neg (by decide), if_neg (by decide),
      if_neg (by decide)]
    norm_num
  have hA11 : A1 T ph 1 1 = 1 := by
    rw [hA1e, if_neg (by decide), if_neg (by decide), if_pos (by decide),
      if_neg (by decide)]
    norm_num
  have hA09 : A0 T ph 1 9 = 1 := by
    rw [hA0e, if_neg (by decide), if_pos (by decide), if_neg (by decide),
      if_neg (by decide)]
    norm_num
  have hA19 : A1 T ph 1 9 = 0 := by
    rw [hA1e, if_neg (by decide), if_neg (by decide), if_neg (by decide),
      if_neg (by decide)]
    norm_num
  have hacc3 : ∀ u, accum T ph u 3 = wOrb T ph u 1 := by
    intro u
    rw [accum_eq T ph hdisjC u 1 ho1 3 hm3, hA03, hA13]
    simp [cj]
  have hacc1 : ∀ u, accum T ph u 1 = wOrb T ph u 1 + cj (wOrb T ph u 1) := by
    intro u
    rw [accum_eq T ph hdisjC u 1 ho1 1 hm1, hA01, hA11]
    simp [cj]
  have hacc9 : ∀ u, accum T ph u 9 = wOrb T ph u 1 := by
    intro u
    rw [accum_eq T ph hdisjC u 1 ho1 9 hm9, hA09, hA19]
    simp [cj]
  have hwexp : ∀ u, wOrb T ph u 1 = u 1 + u 9 + cj (u 1) + u 3 := by
    intro u
    unfold wOrb
    rw [hn4, Finset.sum_range_succ, Finset.sum_range_succ, Finset.sum_range_succ,
      Finset.sum_range_succ, Finset.sum_range_zero, hph, hph, hph, hph]
    rw [show T.idx 1 0 = 1 from by decide, show T.idx 1 1 = 9 from by decide,
      show T.idx 1 2 = 1 from by decide, show T.idx 1 3 = 3 from by decide,
      show T.cnj 1 0 = false from by decide, show T.cnj 1 1 = false from by decide,
      show T.cnj 1 2 = true from by decide, show T.cnj 1 3 = false from by decide]
    unfold condConj
    simp only [Bool.false_eq_true, if_false, if_true, zero_add, one_mul]
  have hw_v : wOrb T ph v 1 = Complex.I := by
    rw [hwexp]
    simp [hv, cj]
  have hM3 : invMultD T 3 = 1 / 4 := by
    have hc : countsD T 3 = 1 := by decide
    unfold invMultD
    rw [hc, hn4]
    norm_num
  have hM1 : invMultD T 1 = 1 / 8 := by
    have hc : countsD T 1 = 2 := by decide
    unfold invMultD
    rw [hc, hn4]
    norm_num
  have hM9 : invMultD T 9 = 1 / 4 := by
    have hc : countsD T 9 = 1 := by decide
    unfold invMultD
    rw [hc, hn4]
    norm_num
  have hs3 : symData T ph v 3 = Complex.I * (1 / 4) := by
    show ((invMultD T 3 : ℚ) : ℂ) * accum T ph v 3 = _
    rw [hacc3, hw_v, hM3]
    push_cast
    ring
  have hs1 : symData T ph v 1 = 0 := by
    show ((invMultD T 1 : ℚ) : ℂ) * accum T ph v 1 = 0
    rw [hacc1, hw_v]
    simp [cj, Complex.conj_I]
  have hs9 : symData T ph v 9 = Complex.I * (1 / 4) := by
    show ((invMultD T 9 : ℚ) : ℂ) * accum T ph v 9 = _
    rw [hacc9, hw_v, hM9]
    push_cast
    ring
  have hw_v1 : wOrb T ph (symData T ph v) 1 = Complex.I * (1 / 2) := by
    rw [hwexp, hs1, hs9, hs3]
    have hc0 : cj (0 : ℂ) = 0 := by simp [cj]
    rw [hc0]
    ring
  have hs3x : symData T ph (symData T ph v) 3 = Complex.I * (1 / 8) := by
    show ((invMultD T 3 : ℚ) : ℂ) * accum T ph (symData T ph v) 3 = _
    rw [hacc3, hw_v1, hM3]
    push_cast
    ring
  show symData T ph (symData T ph v) 3 ≠ symData T ph v 3
  rw [hs3x, hs3]
  intro hEq
  have h2 := mul_left_cancel₀ Complex.I_ne_zero hEq
  norm_num at h2


/-- `torch.searchsorted(a, v)` for a sorted 1-D tensor `a` (left insertion
position): the number of entries of `a` strictly below `v`.  Counting is
invariant under the sorting permutation, so we apply it to the unsorted
list directly (the source sorts `whose_src_mine` by `recv_index` first). -/
def searchsorted (a : List ℕ) (v : ℕ) : ℕ := a.countP (fun x => decide (x < v))

/-- Modelled from the spec: the contiguous block partition of `n_tot` items
over `n_procs` workers (`TaskDivision`), blocks of size
`n_each = ceil(n_tot / n_procs)`, truncated at `n_tot`. -/
def nEach (n_tot n_procs : ℕ) : ℕ := (n_tot + n_procs - 1) / n_procs

/-- Modelled from the spec: `n_prev p`, the number of items owned by workers
of rank below `p`; worker `p` owns `[n_prev p, n_prev (p+1))`. -/
def nPrev (n_tot n_procs p : ℕ) : ℕ := min (p * nEach n_tot n_procs) n_tot

/-- `send_prev = torch.searchsorted(mine_src[0], dest_n_prev)` from
`__init__`: position of each orbit-partition boundary within the locally
owned source slots. -/
def sendPrev (mine_src : List ℕ) (n_tot n_procs p : ℕ) : ℕ :=
  searchsorted mine_src (nPrev n_tot n_procs p)

/-- `recv_prev = torch.searchsorted(whose_src_mine[recv_index], arange(n_procs + 1))`
from `__init__`: position of each rank boundary within the sorted list of
source ranks of the locally owned orbit slots. -/
def recvPrev (whose : List ℕ) (p : ℕ) : ℕ := searchsorted whose p

/-- `counts = np.diff(prev) * n_batch` from `__call__`. -/
def commCounts (prev : ℕ → ℕ) (nb p : ℕ) : ℕ := (prev (p + 1) - prev p) * nb

/-- `offsets = prev[:-1] * n_batch` from `__call__`. -/
def commOffsets (prev : ℕ → ℕ) (nb p : ℕ) : ℕ := prev p * nb

/-- The per-direction argument tuple handed to `comm.Alltoallv`. -/
structure AlltoallArgs where
  sendCounts : ℕ → ℕ
  sendOffsets : ℕ → ℕ
  recvCounts : ℕ → ℕ
  recvOffsets : ℕ → ℕ

/-- The gather-direction `Alltoallv` call of `__call__`:
`(src_data, send_counts, send_offsets) → (dest_data, recv_counts, recv_offsets)`. -/
def gatherCall (sp rp : ℕ → ℕ) (nb : ℕ) : AlltoallArgs :=
  ⟨commCounts sp nb, commOffsets sp nb, commCounts rp nb, commOffsets rp nb⟩

/-- The scatter-direction `Alltoallv` call of `__call__`:
`(dest_data, recv_counts, recv_offsets) → (src_data, send_counts, send_offsets)`. -/
def scatterCall (sp rp : ℕ → ℕ) (nb : ℕ) : AlltoallArgs :=
  ⟨commCounts rp nb, commOffsets rp nb, commCounts sp nb, commOffsets sp nb⟩

theorem searchsorted_zero (a : List ℕ) : searchsorted a 0 = 0 := by
  unfold searchsorted
  refine List.countP_eq_zero.mpr fun x _ => by simp

theorem searchsorted_mono (a : List ℕ) (v w : ℕ) (h : v ≤ w) :
    searchsorted a v ≤ searchsorted a w := by
  unfold searchsorted
  induction a with
  | nil => simp
  | cons x xs ih =>
    rw [List.countP_cons, List.countP_cons]
    by_cases h1 : x < v
    · have h2 : x < w := lt_of_lt_of_le h1 h
      simp [h1, h2]
      omega
    · by_cases h2 : x < w
      · simp [h1, h2]
        omega
      · simp [h1, h2]
        omega

theorem nPrev_zero (n_tot n_procs : ℕ) : nPrev n_tot n_procs 0 = 0 := by
  simp [nPrev]

theorem nPrev_mono (n_tot n_procs p : ℕ) :
    nPrev n_tot n_procs p ≤ nPrev n_tot n_procs (p + 1) :=
  min_le_min (Nat.mul_le_mul_right _ (Nat.le_succ p)) le_rfl

/-- Exclusive-prefix-sum identity for any monotone boundary table starting
at zero. -/
theorem commOffsets_prefix (prev : ℕ → ℕ) (h0 : prev 0 = 0)
    (hm : ∀ p, prev p ≤ prev (p + 1)) (nb p : ℕ) :
    commOffsets prev nb p = ∑ q ∈ Finset.range p, commCounts prev nb q := by
  induction p with
  | zero => simp [commOffsets, h0]
  | succ p ih =>
    rw [Finset.sum_range_succ, ← ih]
    unfold commOffsets commCounts
    calc prev (p + 1) * nb = (prev p + (prev (p + 1) - prev p)) * nb := by
          rw [Nat.add_sub_cancel' (hm p)]
    _ = prev p * nb + (prev (p + 1) - prev p) * nb := by rw [Nat.add_mul]

/-- **C7.** In both directions of the communication schedule, the offsets
handed to `Alltoallv` are the exclusive prefix sums of the corresponding
counts in worker-rank order (rank 0 at offset 0), and the scatter call uses
exactly the gather call's counts and offsets with send and receive roles
swapped. -/
theorem c7_comm_schedule (mine_src whose : List ℕ) (n_tot n_procs nb : ℕ) :
    (∀ p, commOffsets (sendPrev mine_src n_tot n_procs) nb p =
      ∑ q ∈ Finset.range p, commCounts (sendPrev mine_src n_tot n_procs) nb q) ∧
    (∀ p, commOffsets (recvPrev whose) nb p =
      ∑ q ∈ Finset.range p, commCounts (recvPrev whose) nb q) ∧
    scatterCall (sendPrev mine_src n_tot n_procs) (recvPrev whose) nb =
      ⟨(gatherCall (sendPrev mine_src n_tot n_procs) (recvPrev whose) nb).recvCounts,
        (gatherCall (sendPrev mine_src n_tot n_procs) (recvPrev whose) nb).recvOffsets,
        (gatherCall (sendPrev mine_src n_tot n_procs) (recvPrev whose) nb).sendCounts,
        (gatherCall (sendPrev mine_src n_tot n_procs) (recvPrev whose) nb).sendOffsets⟩ := by
  refine ⟨?_, ?_, rfl⟩
  · intro p
    refine commOffsets_prefix _ ?_ ?_ nb p
    · unfold sendPrev
      rw [nPrev_zero]
      exact searchsorted_zero mine_src
    · intro q
      exact searchsorted_mono mine_src _ _ (nPrev_mono n_tot n_procs q)
  · intro p
    refine commOffsets_prefix _ ?_ ?_ nb p
    · exact searchsorted_zero whose
    · intro q
      exact searchsorted_mono whose q (q + 1) (Nat.le_succ q)


/-- The multi-process branch of `__call__` up to and including the first
`Alltoallv`: the only check executed before the exchange is
`assert v.grid == grid` (line 107); the counts and offsets derived from the
stored `send_prev`/`recv_prev` boundary tables are handed to the exchange
without any validation (in particular, no count-sum assertion exists). -/
def mpGatherPrologue (g vgrid : GridShape) (sp rp : ℕ → ℕ) (nb : ℕ) :
    Except Unit AlltoallArgs :=
  if vgrid = g then Except.ok (gatherCall sp rp nb) else Except.error ()

/-- **C8 (counterexample).** No count-sum assertion guards the first
exchange: with the orbit partition computed for 2 workers
(boundaries `sendPrev [0, 1] 3 2`, two local source slots) while the grid
side runs with 3 workers (source ranks `[1, 2, 2]` for the local orbit
slots), the total send count (2) differs from the total receive count (3),
yet the call path reaches the exchange returning these very counts, with no
error. -/
theorem c8_count_assert_counterexample :
    (∑ p ∈ Finset.range 3, commCounts (sendPrev [0, 1] 3 2) 1 p) ≠
      (∑ p ∈ Finset.range 3, commCounts (recvPrev [1, 2, 2]) 1 p) ∧
    mpGatherPrologue ⟨4, 1, 4⟩ ⟨4, 1, 4⟩ (sendPrev [0, 1] 3 2) (recvPrev [1, 2, 2]) 1 =
      Except.ok (gatherCall (sendPrev [0, 1] 3 2) (recvPrev [1, 2, 2]) 1) := by
  constructor
  · decide
  · rfl

/-- **C8 (amended).** The only fatal check on the call path before the
first exchange is the grid-identity assertion: the multi-process prologue
errors exactly when the field grid differs from the engine grid, regardless
of any count mismatch. -/
theorem c8_count_assert_amended (g vgrid : GridShape) (sp rp : ℕ → ℕ) (nb : ℕ) :
    mpGatherPrologue g vgrid sp rp nb = Except.error () ↔ vgrid ≠ g := by
  unfold mpGatherPrologue
  by_cases h : vgrid = g
  · simp [h]
  · simp [h]

/-- A `FieldH` as seen by `__call__`: its grid and its flattened data. -/
structure FieldC where
  grid : GridShape
  data : ℕ → ℂ

/-- In-place semantics of `__call__` (single-process branch): the
`assert v.grid == grid` on line 107 raises before any statement that writes
to `v.data`, so on a grid mismatch the caller's buffer is returned
untouched; otherwise the buffer holds the symmetrized data. -/
noncomputable def fieldCallInPlace (g : GridShape) (rot : List Mat3)
    (trans : List (Fin 3 → ℚ)) (v : FieldC) : Except Unit Unit × FieldC :=
  if v.grid = g then (Except.ok (), ⟨v.grid, symmetrize g rot trans v.data⟩)
  else (Except.error (), v)

/-- **C9.** A call on a field whose grid is not the engine's grid fails the
assertion before any modification of the caller's buffer: the call reports
an error and the field is returned exactly as passed in, never partially
symmetrized. -/
theorem c9_grid_assert_abort (g : GridShape) (rot : List Mat3)
    (trans : List (Fin 3 → ℚ)) (v : FieldC) (h : v.grid ≠ g) :
    (fieldCallInPlace g rot trans v).1 = Except.error () ∧
      (fieldCallInPlace g rot trans v).2 = v := by
  unfold fieldCallInPlace
  rw [if_neg h]
  exact ⟨rfl, rfl⟩

theorem c9_grid_assert_abort_witness :
    (FieldC.mk ⟨2, 2, 2⟩ (fun _ => 0)).grid ≠ ⟨1, 1, 4⟩ ∧
    (fieldCallInPlace ⟨1, 1, 4⟩ [idMat] [fun _ => 0]
        (FieldC.mk ⟨2, 2, 2⟩ (fun _ => 0))).1 = Except.error () ∧
    (fieldCallInPlace ⟨1, 1, 4⟩ [idMat] [fun _ => 0]
        (FieldC.mk ⟨2, 2, 2⟩ (fun _ => 0))).2 = FieldC.mk ⟨2, 2, 2⟩ (fun _ => 0) :=
  ⟨by decide,
    (c9_grid_assert_abort ⟨1, 1, 4⟩ [idMat] [fun _ => 0]
      (FieldC.mk ⟨2, 2, 2⟩ (fun _ => 0)) (by decide)).1,
    (c9_grid_assert_abort ⟨1, 1, 4⟩ [idMat] [fun _ => 0]
      (FieldC.mk ⟨2, 2, 2⟩ (fun _ => 0)) (by decide)).2⟩

/-- The engine state precomputed by `__init__` and read (never written) by
`__call__`: the grid, the member-index table and conjugation flags `T`, the
phase table, and the communication boundary tables. -/
structure EngineC where
  grid : GridShape
  T : IndexData
  ph : ℕ → ℕ → ℂ
  sp : ℕ → ℕ
  rp : ℕ → ℕ

/-- One `__call__` on `(engine, field)`: the method only reads `self`, and
assigns only `v.data` (of unchanged shape, since the result is viewed back
as `v.data.shape`); on the failed grid assertion nothing is written. -/
noncomputable def engineCall (E : EngineC) (v : FieldC) : EngineC × FieldC :=
  if v.grid = E.grid then (E, ⟨v.grid, symData E.T E.ph v.data⟩) else (E, v)

/-- `k` successive symmetrization calls threading the engine state. -/
noncomputable def iterCall (E : EngineC) (v : FieldC) : ℕ → EngineC × FieldC
  | 0 => (E, v)
  | k + 1 => engineCall (iterCall E v k).1 (iterCall E v k).2

/-- **C10.** A symmetrization call mutates only the field's data: across any
number of calls the engine state (grid, index table, conjugation flags,
phase table, communication boundaries) is exactly unchanged, and the
field's grid (hence its data shape) is preserved. -/
theorem c10_frame_effect (E : EngineC) (v : FieldC) (k : ℕ) :
    (iterCall E v k).1 = E ∧ (iterCall E v k).2.grid = v.grid := by
  induction k with
  | zero => exact ⟨rfl, rfl⟩
  | succ k ih =>
    obtain ⟨hE, hg⟩ := ih
    unfold iterCall engineCall
    rw [hE]
    by_cases h : (iterCall E v k).2.grid = E.grid
    · rw [if_pos h]
      exact ⟨rfl, hg⟩
    · rw [if_neg h]
      exact ⟨rfl, hg⟩


end QimpySymm
